import Mathlib

set_option maxHeartbeats 1000000

/-!
# Verification of the dynamic memory manager (`memmgr.c`)

Shallow embedding of the boundary-tag heap allocator from `lab-3-memory/src/memmgr.c`.

The heap is modelled as byte-addressed memory `Mem = Nat → Nat` (the value at an
address is the byte stored there).  A heap *word* (C type `unsigned long`,
`TYPE_SIZE = 8` bytes) is read and written little-endian through `GETw`/`PUTw`,
mirroring the C macros `GET`/`PUT`.  Addresses are natural numbers (byte offsets
inside the data segment).  All sizes and tag values occurring in reachable heaps
are far below `2^64`, so natural-number arithmetic coincides with the C `size_t`
arithmetic wherever the code computes sizes; the one place the code compares
against `UINT_MAX` uses the explicit constant below.

The C `while` loops (free-block scans, the malloc search-extend loop, the heap
walk of `mm_check`) are unbounded; they are embedded with an explicit fuel
argument.  Theorems assume or provide enough fuel, which corresponds to the C
loops terminating.
-/

namespace MemMgr

/-- `TYPE_SIZE = sizeof(unsigned long)`: the heap word width in bytes. -/
def TYPE_SIZE : Nat := 8

/-- `BS`: minimal block size / alignment granularity in bytes. -/
def BS : Nat := 32

/-- `CHUNKSIZE = 1 << 12`: granularity of heap extension. -/
def CHUNKSIZE : Nat := 4096

/-- `UINT_MAX` (32-bit, as used by `mm_calloc` and `bf_get_free_block`). -/
def UINT_MAX : Nat := 2 ^ 32 - 1

/-- `ALLOC`: status bit of an allocated block. -/
def ALLOC : Nat := 1

/-- `FREE`: status of a free block. -/
def FREE : Nat := 0

/-- Byte-addressed memory. -/
abbrev Mem := Nat → Nat

/-- `GET(p)`: read the 8-byte word at address `p` (little-endian). -/
def GETw (m : Mem) (p : Nat) : Nat :=
  m p + 256 * (m (p + 1) + 256 * (m (p + 2) + 256 * (m (p + 3) +
    256 * (m (p + 4) + 256 * (m (p + 5) + 256 * (m (p + 6) + 256 * m (p + 7)))))))

/-- `PUT(p,v)`: store the 8-byte word `v` at address `p` (little-endian). -/
def PUTw (m : Mem) (p v : Nat) : Mem := fun a =>
  if p ≤ a ∧ a < p + 8 then v / 256 ^ (a - p) % 256 else m a

/-- `PACK(size,status) = size | status`. -/
def PACKt (sz st : Nat) : Nat := sz ||| st

/-- `SIZE(v) = v & ~0x7` (for word values below `2^64`). -/
def SIZEt (v : Nat) : Nat := v - v % 8

/-- `STATUS(v) = v & 0x7`. -/
def STATUSt (v : Nat) : Nat := v % 8

/-- `memset(p, c, n)` on byte memory. -/
def memsetB (m : Mem) (p c n : Nat) : Mem := fun a =>
  if p ≤ a ∧ a < p + n then c % 256 else m a

/-- `memcpy(dst, src, n)` on byte memory (non-overlapping use in the source). -/
def memcpyB (m : Mem) (dst src n : Nat) : Mem := fun a =>
  if dst ≤ a ∧ a < dst + n then m (src + (a - dst)) else m a

theorem PUTw_in (m : Mem) (p v a : Nat) (h : p ≤ a ∧ a < p + 8) :
    PUTw m p v a = v / 256 ^ (a - p) % 256 := by
  unfold PUTw; rw [if_pos h]

theorem PUTw_out (m : Mem) (p v a : Nat) (h : a < p ∨ p + 8 ≤ a) :
    PUTw m p v a = m a := by
  unfold PUTw; rw [if_neg (by omega)]

theorem GETw_congr {m₁ m₂ : Mem} (p : Nat) (h : ∀ i, i < 8 → m₁ (p + i) = m₂ (p + i)) :
    GETw m₁ p = GETw m₂ p := by
  have h0 := h 0 (by omega)
  have h1 := h 1 (by omega)
  have h2 := h 2 (by omega)
  have h3 := h 3 (by omega)
  have h4 := h 4 (by omega)
  have h5 := h 5 (by omega)
  have h6 := h 6 (by omega)
  have h7 := h 7 (by omega)
  simp only [Nat.add_zero] at h0
  unfold GETw
  rw [h0, h1, h2, h3, h4, h5, h6, h7]

theorem GETw_PUTw_same (m : Mem) (p v : Nat) (hv : v < 2 ^ 64) :
    GETw (PUTw m p v) p = v := by
  unfold GETw
  rw [PUTw_in m p v p (by omega), PUTw_in m p v (p+1) (by omega),
      PUTw_in m p v (p+2) (by omega), PUTw_in m p v (p+3) (by omega),
      PUTw_in m p v (p+4) (by omega), PUTw_in m p v (p+5) (by omega),
      PUTw_in m p v (p+6) (by omega), PUTw_in m p v (p+7) (by omega)]
  have e0 : p - p = 0 := by omega
  have e1 : p + 1 - p = 1 := by omega
  have e2 : p + 2 - p = 2 := by omega
  have e3 : p + 3 - p = 3 := by omega
  have e4 : p + 4 - p = 4 := by omega
  have e5 : p + 5 - p = 5 := by omega
  have e6 : p + 6 - p = 6 := by omega
  have e7 : p + 7 - p = 7 := by omega
  rw [e0, e1, e2, e3, e4, e5, e6, e7]
  norm_num
  omega

theorem GETw_PUTw_ne (m : Mem) (p v q : Nat) (h : q + 8 ≤ p ∨ p + 8 ≤ q) :
    GETw (PUTw m p v) q = GETw m q := by
  apply GETw_congr
  intro i hi
  exact PUTw_out m p v (q + i) (by omega)

theorem PACKt_eq (sz st : Nat) (h2 : sz % 2 = 0) (hst : st < 2) :
    PACKt sz st = sz + st := by
  unfold PACKt
  interval_cases st
  · simp
  · obtain ⟨k, rfl⟩ : ∃ k, sz = 2 * k := ⟨sz / 2, by omega⟩
    have hb : (2 * k : Nat) = Nat.bit false k := by simp [Nat.bit]
    have h1 : (1 : Nat) = Nat.bit true 0 := rfl
    rw [hb, h1, Nat.lor_bit]
    simp [Nat.bit]

theorem SIZEt_PACKt (sz st : Nat) (h8 : sz % 8 = 0) (hst : st < 2) :
    SIZEt (PACKt sz st) = sz := by
  rw [PACKt_eq sz st (by omega) hst]
  unfold SIZEt
  omega

theorem STATUSt_PACKt (sz st : Nat) (h8 : sz % 8 = 0) (hst : st < 2) :
    STATUSt (PACKt sz st) = st := by
  rw [PACKt_eq sz st (by omega) hst]
  unfold STATUSt
  omega

theorem PACKt_lt (sz st : Nat) (h : sz + 2 ≤ 2 ^ 64) (h2 : sz % 2 = 0) (hst : st < 2) :
    PACKt sz st < 2 ^ 64 := by
  rw [PACKt_eq sz st h2 hst]
  omega

/-- Allocation policy (`AllocationPolicy`). -/
inductive Policy where
  | firstFit
  | nextFit
  | bestFit
deriving DecidableEq

/-- Allocator state: the raw memory plus the global variables of `memmgr.c`
(`heap_start`, `heap_end`, `ds_heap_brk`, `nf_ptr`, `nf`, the selected policy). -/
structure MM where
  mem : Mem
  heap_start : Nat
  heap_end : Nat
  ds_brk : Nat
  nf_ptr : Nat
  nf : Bool
  policy : Policy

/-- Outcome of an operation: a value, process termination via `PANIC`, or fuel
exhaustion (the C loop would still be running). -/
inductive Res (α : Type) where
  | ok (x : α)
  | panic
  | fuelOut

/-- Whether a result is a normal return. -/
def Res.isOk {α : Type} : Res α → Bool
  | .ok _ => true
  | _ => false

/-- The state returned by a heap operation (junk default otherwise). -/
def Res.st : Res (MM × Nat) → MM
  | .ok (s, _) => s
  | _ => ⟨fun _ => 0, 0, 0, 0, 0, false, .firstFit⟩

/-- The pointer returned by a heap operation (0 = `NULL`; junk default otherwise). -/
def Res.addr : Res (MM × Nat) → Nat
  | .ok (_, p) => p
  | _ => 0

/-- Block size computed by `mm_malloc`/`mm_realloc`:
`ceil((double)(size + 2*TYPE_SIZE) / BS) * BS`.  The double-precision `ceil` of
the source is exact for the word-sized values considered here. -/
def allocSize (size : Nat) : Nat := (size + 2 * TYPE_SIZE + (BS - 1)) / BS * BS

/-- `ff_get_free_block`: first-fit scan from `heap_start` (fuel-bounded loop). -/
def ffScan (m : Mem) (he sz : Nat) : Nat → Nat → Option Nat
  | 0, _ => none
  | fuel + 1, p =>
    if p < he then
      if STATUSt (GETw m p) = FREE ∧ sz ≤ SIZEt (GETw m p) then some p
      else ffScan m he sz fuel (p + SIZEt (GETw m p))
    else none

/-- `nf_get_free_block`: next-fit circular scan starting at `nf_ptr = nf0`.
The C loop is `do { ... } while (traverse_ptr != nf_ptr)`; reaching `heap_end`
wraps to `heap_start` via `continue`, which re-evaluates the guard. -/
def nfScan (m : Mem) (hs he sz nf0 : Nat) : Nat → Nat → Option Nat
  | 0, _ => none
  | fuel + 1, p =>
    if p = he then
      if hs = nf0 then none else nfScan m hs he sz nf0 fuel hs
    else
      if STATUSt (GETw m p) = FREE ∧ sz ≤ SIZEt (GETw m p) then some p
      else
        if p + SIZEt (GETw m p) = nf0 then none
        else nfScan m hs he sz nf0 fuel (p + SIZEt (GETw m p))

/-- `bf_get_free_block`: best-fit scan tracking the minimal fragmentation seen,
starting from `bf_ptr = NULL` and `bf_fragmentation = UINT_MAX`. -/
def bfScan (m : Mem) (he sz : Nat) : Nat → Nat → Option Nat → Nat → Option Nat
  | 0, _, bfp, _ => bfp
  | fuel + 1, p, bfp, bff =>
    if p < he then
      if STATUSt (GETw m p) = FREE ∧ sz ≤ SIZEt (GETw m p) ∧ SIZEt (GETw m p) - sz < bff then
        bfScan m he sz fuel (p + SIZEt (GETw m p)) (some p) (SIZEt (GETw m p) - sz)
      else
        bfScan m he sz fuel (p + SIZEt (GETw m p)) bfp bff
    else bfp

/-- Enough scan fuel for any well-formed heap (all blocks are at least 32 bytes,
and the next-fit scan passes over the sequence at most twice). -/
def scanFuel (s : MM) : Nat := (s.heap_end - s.heap_start) / 32 * 2 + 4

/-- `get_free_block`: policy dispatch.  The next-fit policy also advances the
cursor to the found block. -/
def get_free_block (s : MM) (sz : Nat) : MM × Option Nat :=
  match s.policy with
  | .firstFit => (s, ffScan s.mem s.heap_end sz (scanFuel s) s.heap_start)
  | .bestFit => (s, bfScan s.mem s.heap_end sz (scanFuel s) s.heap_start none UINT_MAX)
  | .nextFit =>
    match nfScan s.mem s.heap_start s.heap_end sz s.nf_ptr (scanFuel s) s.nf_ptr with
    | some a => ({ s with nf_ptr := a }, some a)
    | none => (s, none)

/-- `coalesce(bp)`: merge the block whose payload starts at `bp` with its free
neighbours; returns the updated memory and the (possibly moved) payload
pointer.  Follows the C code statement by statement, including the re-reads of
tags that earlier statements have just written (`FTRP` expands to a read of the
current header). -/
def coalesce (m : Mem) (bp : Nat) : Mem × Nat :=
  let size := SIZEt (GETw m (bp - 8))
  let prev_alloc := STATUSt (GETw m (bp - 16))
  let next_alloc := STATUSt (GETw m (bp - 8 + size))
  if prev_alloc ≠ 0 ∧ next_alloc = 0 then
    let size' := size + SIZEt (GETw m (bp - 8 + size))
    let m1 := PUTw m (bp - 8) (PACKt size' FREE)
    let m2 := PUTw m1 (bp - 8 + SIZEt (GETw m1 (bp - 8)) - 8) (PACKt size' FREE)
    (m2, bp)
  else if prev_alloc = 0 ∧ next_alloc ≠ 0 then
    let psz := SIZEt (GETw m (bp - 16))
    let size' := size + psz
    let m1 := PUTw m (bp - psz - 8) (PACKt size' FREE)
    let m2 := PUTw m1 (bp - 8 + SIZEt (GETw m1 (bp - 8)) - 8) (PACKt size' FREE)
    (m2, bp - psz)
  else if prev_alloc = 0 ∧ next_alloc = 0 then
    let psz := SIZEt (GETw m (bp - 16))
    let nsz := SIZEt (GETw m (bp - 8 + size))
    let size' := size + psz + nsz
    let m1 := PUTw m (bp - psz - 8) (PACKt size' FREE)
    let nbp := bp + SIZEt (GETw m1 (bp - 8))
    let m2 := PUTw m1 (nbp - 8 + SIZEt (GETw m1 (nbp - 8)) - 8) (PACKt size' FREE)
    (m2, bp - psz)
  else (m, bp)

/-- `mm_init(ap)`: carve an aligned heap out of a fresh data segment starting at
`ds_start` (extended by `CHUNKSIZE` via `ds_sbrk`), write the two sentinel
half-blocks and one spanning free block, and set the next-fit cursor. -/
def mm_init (pol : Policy) (ds_start : Nat) : MM :=
  let brk := ds_start + CHUNKSIZE
  let hs := (ds_start / BS + 1) * BS
  let he := (brk / BS - 1) * BS
  let m0 : Mem := fun _ => 0
  let m1 := PUTw m0 (hs - 8) (PACKt 0 ALLOC)
  let m2 := PUTw m1 he (PACKt 0 ALLOC)
  let m3 := PUTw m2 hs (PACKt (he - hs) FREE)
  let m4 := PUTw m3 (he - 8) (PACKt (he - hs) FREE)
  { mem := m4, heap_start := hs, heap_end := he, ds_brk := brk,
    nf_ptr := if pol = .nextFit then hs else 0,
    nf := pol = .nextFit, policy := pol }

/-- `extend_heap(n)` after a successful `ds_sbrk(n)`: free the old end
sentinel's half-block, install a new end sentinel `4*TYPE_SIZE` below the new
break, create a free block over the added bytes, and coalesce. -/
def extend_heap (s : MM) (n : Nat) : MM :=
  let old_brk := s.ds_brk
  let oss := old_brk - s.heap_end
  let m1 := PUTw s.mem s.heap_end (PACKt oss FREE)
  let m2 := PUTw m1 (s.heap_end + SIZEt (GETw m1 s.heap_end) - 8) (PACKt oss FREE)
  let brk' := old_brk + n
  let m3 := PUTw m2 (brk' - 4 * TYPE_SIZE) (PACKt 0 ALLOC)
  let he' := brk' - 4 * TYPE_SIZE
  let abs := he' - old_brk
  let m4 := PUTw m3 old_brk (PACKt abs FREE)
  let m5 := PUTw m4 (old_brk + SIZEt (GETw m4 old_brk) - 8) (PACKt abs FREE)
  let target := old_brk + 8 - SIZEt (GETw m5 (old_brk - 8))
  let r := coalesce m5 target
  { s with mem := r.1, ds_brk := brk', heap_end := he' }

/-- The tail of `mm_malloc` once `get_free_block` has returned a block header
`addr`: write the allocated tags, split off the remainder if the block is
larger than requested, and return the payload pointer `addr + TYPE_SIZE`. -/
def mm_malloc_finish (s : MM) (addr asz : Nat) : MM × Nat :=
  let actual := SIZEt (GETw s.mem addr)
  let m1 := PUTw s.mem addr (PACKt asz ALLOC)
  let m2 := PUTw m1 (addr + SIZEt (GETw m1 addr) - 8) (PACKt asz ALLOC)
  let m3 :=
    if asz < actual then
      let sp := addr + asz
      let mA := PUTw m2 sp (PACKt (actual - asz) FREE)
      PUTw mA (sp + SIZEt (GETw mA sp) - 8) (PACKt (actual - asz) FREE)
    else m2
  ({ s with mem := m3 }, addr + 8)

/-- The search-extend-retry loop of `mm_malloc`.  `orc k` tells whether the
`k`-th `ds_sbrk` call from now succeeds; a failing call is `PANIC` (process
abort).  `fuel` bounds the number of loop iterations modelled. -/
def mm_malloc_loop : MM → (Nat → Bool) → Nat → Nat → Res (MM × Nat)
  | _, _, _, 0 => .fuelOut
  | s, orc, asz, fuel + 1 =>
    match get_free_block s asz with
    | (s1, some addr) => .ok (mm_malloc_finish s1 addr asz)
    | (s1, none) =>
      if orc 0 then mm_malloc_loop (extend_heap s1 CHUNKSIZE) (fun k => orc (k + 1)) asz fuel
      else .panic

/-- `mm_malloc(size)`. -/
def mm_malloc (s : MM) (orc : Nat → Bool) (size fuel : Nat) : Res (MM × Nat) :=
  mm_malloc_loop s orc (allocSize size) fuel

/-- `mm_calloc(nmemb, size)`: `NULL` on a zero argument; `PANIC` when
`UINT_MAX / nmemb < size`; otherwise allocate and zero-fill. -/
def mm_calloc (s : MM) (orc : Nat → Bool) (nmemb size fuel : Nat) : Res (MM × Nat) :=
  if nmemb = 0 ∨ size = 0 then .ok (s, 0)
  else if UINT_MAX / nmemb < size then .panic
  else
    match mm_malloc s orc (nmemb * size) fuel with
    | .ok (s1, p) =>
      if p = 0 then .ok (s1, p)
      else .ok ({ s1 with mem := memsetB s1.mem p 0 (nmemb * size) }, p)
    | r => r

/-- `mm_free(bp)`: no-op on `NULL`; reset the next-fit cursor when it references
this block; mark the block free; coalesce. -/
def mm_free (s : MM) (bp : Nat) : MM :=
  if bp = 0 then s
  else
    let s1 := if s.nf ∧ bp - 8 = s.nf_ptr then { s with nf_ptr := s.heap_start } else s
    let size := SIZEt (GETw s1.mem (bp - 8))
    let m1 := PUTw s1.mem (bp - 8) (PACKt size FREE)
    let m2 := PUTw m1 (bp - 8 + SIZEt (GETw m1 (bp - 8)) - 8) (PACKt size FREE)
    let r := coalesce m2 bp
    { s1 with mem := r.1 }

/-- `mm_realloc(bp, size)`, statement by statement: `NULL` pointer behaves as
`mm_malloc`; `size == 0` calls `mm_free` and then *continues*, reading the
freed block's header (the latent use-after-free of the source); then the
shrink-in-place / extend-in-place / allocate-copy-free case split. -/
def mm_realloc (s : MM) (orc : Nat → Bool) (bp0 size fuel : Nat) : Res (MM × Nat) :=
  match (if bp0 = 0 then mm_malloc s orc size fuel else .ok (s, bp0)) with
  | .ok (s1, bp) =>
    let s2 := if size = 0 then mm_free s1 bp else s1
    let org_size := SIZEt (GETw s2.mem (bp - 8))
    let asz := allocSize size
    if asz < org_size then
      let m1 := PUTw s2.mem (bp - 8) (PACKt asz ALLOC)
      let m2 := PUTw m1 (bp - 8 + SIZEt (GETw m1 (bp - 8)) - 8) (PACKt asz ALLOC)
      let nbp := bp + SIZEt (GETw m2 (bp - 8))
      let m3 := PUTw m2 (nbp - 8) (PACKt (org_size - asz) FREE)
      let m4 := PUTw m3 (nbp - 8 + SIZEt (GETw m3 (nbp - 8)) - 8) (PACKt (org_size - asz) FREE)
      let r := coalesce m4 nbp
      .ok ({ s2 with mem := r.1 }, bp)
    else if org_size < asz then
      let nbp := bp + SIZEt (GETw s2.mem (bp - 8))
      let nsz := SIZEt (GETw s2.mem (nbp - 8))
      if STATUSt (GETw s2.mem (nbp - 8)) = FREE ∧ asz - org_size ≤ nsz then
        let m1 := PUTw s2.mem (bp - 8) (PACKt asz ALLOC)
        let m2 := PUTw m1 (bp - 8 + SIZEt (GETw m1 (bp - 8)) - 8) (PACKt asz ALLOC)
        if asz - org_size < nsz then
          let sbp := bp + SIZEt (GETw m2 (bp - 8))
          let ssz := nsz - (asz - org_size)
          let m3 := PUTw m2 (sbp - 8) (PACKt ssz FREE)
          let m4 := PUTw m3 (sbp - 8 + SIZEt (GETw m3 (sbp - 8)) - 8) (PACKt ssz FREE)
          .ok ({ s2 with mem := m4 }, bp)
        else .ok ({ s2 with mem := m2 }, bp)
      else
        match mm_malloc s2 orc size fuel with
        | .ok (s3, nb) =>
          let psz := org_size - 2 * TYPE_SIZE
          let s4 := mm_free s3 bp
          .ok ({ s4 with mem := memcpyB s4.mem nb bp psz }, nb)
        | r => r
    else .ok (s2, bp)
  | r => r

/-- The block-walk of `mm_check`: `true` iff the walk from `p` reaches exactly
`heap_end` with every block's footer agreeing with its header (the
"Block structure coherent" verdict). -/
def mmCheck (m : Mem) (he : Nat) : Nat → Nat → Bool
  | 0, _ => false
  | fuel + 1, p =>
    if p < he then
      let size := SIZEt (GETw m p)
      if size ≠ SIZEt (GETw m (p + size - 8)) ∨
         STATUSt (GETw m p) ≠ STATUSt (GETw m (p + size - 8)) then false
      else if size = 0 then false
      else mmCheck m he fuel (p + size)
    else decide (p = he)

/-! ## Heap rendering: relating raw memory to a sequence of blocks -/

/-- A block: `(size, status)` with `status ∈ {FREE, ALLOC}`. -/
abbrev Blk := Nat × Nat

/-- Total byte size of a block sequence. -/
def sizeSum : List Blk → Nat
  | [] => 0
  | (sz, _) :: r => sz + sizeSum r

/-- `blockListAt m p bs`: starting at address `p`, memory `m` renders the block
sequence `bs`: each block's header and footer words hold `PACK(size,status)`,
sizes are multiples of `BS = 32` and at least 32, statuses are `FREE`/`ALLOC`,
and consecutive blocks are physically adjacent. -/
def blockListAt (m : Mem) : Nat → List Blk → Prop
  | _, [] => True
  | p, (sz, st) :: r =>
    GETw m p = PACKt sz st ∧ GETw m (p + sz - 8) = PACKt sz st ∧
    sz % 32 = 0 ∧ 32 ≤ sz ∧ st < 2 ∧ blockListAt m (p + sz) r

instance blockListAt.dec (m : Mem) (p : Nat) (bs : List Blk) :
    Decidable (blockListAt m p bs) :=
  match bs with
  | [] => .isTrue trivial
  | (sz, st) :: r =>
    have ih : Decidable (blockListAt m (p + sz) r) := blockListAt.dec m (p + sz) r
    inferInstanceAs (Decidable (_ ∧ _ ∧ _ ∧ _ ∧ _ ∧ _))

/-- Header addresses of the blocks of a sequence starting at `p`. -/
def headerAddrs (p : Nat) : List Blk → List Nat
  | [] => []
  | (sz, _) :: r => p :: headerAddrs (p + sz) r

/-- No two adjacent blocks are both free. -/
def NoAdjFree (bs : List Blk) : Prop :=
  List.Chain' (fun a b : Blk => ¬(a.2 = FREE ∧ b.2 = FREE)) bs

instance noAdjFreeDec : (bs : List Blk) → Decidable (NoAdjFree bs)
  | [] => .isTrue List.chain'_nil
  | [b] => .isTrue (List.chain'_singleton b)
  | a :: b :: r =>
    have ih := noAdjFreeDec (b :: r)
    decidable_of_iff (¬(a.2 = FREE ∧ b.2 = FREE) ∧ NoAdjFree (b :: r))
      (by unfold NoAdjFree
          exact (@List.chain'_cons Blk (fun x y : Blk => ¬(x.2 = FREE ∧ y.2 = FREE)) a b r).symm)

/-- Well-formed allocator state rendering the block sequence `bs`:
the interior `[heap_start, heap_end)` is exactly the blocks of `bs`, both
sentinels read as allocated, the heap bounds are 32-byte aligned, the data
segment break sits one sentinel row (32 bytes) above `heap_end`, and the
next-fit cursor (when the policy is next fit) references a block header. -/
structure WF (s : MM) (bs : List Blk) : Prop where
  blocks : blockListAt s.mem s.heap_start bs
  extent : s.heap_start + sizeSum bs = s.heap_end
  lsent : STATUSt (GETw s.mem (s.heap_start - 8)) = ALLOC
  rsent : STATUSt (GETw s.mem s.heap_end) = ALLOC
  hs32 : s.heap_start % 32 = 0
  hs_lb : 32 ≤ s.heap_start
  brk : s.ds_brk = s.heap_end + 32
  he_ub : s.heap_end < 2 ^ 64
  nonnil : bs ≠ []
  nfp : s.nf = true → s.nf_ptr ∈ headerAddrs s.heap_start bs
  nfb : s.nf = true ↔ s.policy = Policy.nextFit

/-! ### Basic rendering lemmas -/

theorem sizeSum_append (l1 l2 : List Blk) :
    sizeSum (l1 ++ l2) = sizeSum l1 + sizeSum l2 := by
  induction l1 with
  | nil => simp [sizeSum]
  | cons b r ih => obtain ⟨sz, st⟩ := b; simp [sizeSum, ih]; omega

theorem blockListAt_congr {m₁ m₂ : Mem} {bs : List Blk} (p : Nat)
    (hag : ∀ a, p ≤ a → a < p + sizeSum bs → m₁ a = m₂ a)
    (h : blockListAt m₁ p bs) : blockListAt m₂ p bs := by
  induction bs generalizing p with
  | nil => trivial
  | cons b r ih =>
    obtain ⟨sz, st⟩ := b
    obtain ⟨h1, h2, h3, h4, h5, h6⟩ := h
    have hsz : sz ≤ sizeSum ((sz, st) :: r) := by simp [sizeSum]
    refine ⟨?_, ?_, h3, h4, h5, ?_⟩
    · rw [← GETw_congr p (fun i hi => hag (p + i) (by omega) (by simp [sizeSum]; omega))]
      exact h1
    · rw [← GETw_congr (p + sz - 8) (fun i hi => hag (p + sz - 8 + i) (by omega)
        (by simp [sizeSum]; omega))]
      exact h2
    · exact ih (p + sz) (fun a ha1 ha2 => hag a (by omega) (by simp [sizeSum]; omega)) h6

theorem blockListAt_append {m : Mem} {l1 l2 : List Blk} (p : Nat) :
    blockListAt m p (l1 ++ l2) ↔
      blockListAt m p l1 ∧ blockListAt m (p + sizeSum l1) l2 := by
  induction l1 generalizing p with
  | nil => simp [blockListAt, sizeSum]
  | cons b r ih =>
    obtain ⟨sz, st⟩ := b
    have hss : p + sizeSum ((sz, st) :: r) = p + sz + sizeSum r := by simp [sizeSum]; omega
    constructor
    · intro h
      have h' : GETw m p = PACKt sz st ∧ GETw m (p + sz - 8) = PACKt sz st ∧
          sz % 32 = 0 ∧ 32 ≤ sz ∧ st < 2 ∧ blockListAt m (p + sz) (r ++ l2) := h
      obtain ⟨h1, h2, h3, h4, h5, h6⟩ := h'
      rw [ih (p + sz)] at h6
      refine ⟨⟨h1, h2, h3, h4, h5, h6.1⟩, ?_⟩
      rw [hss]
      exact h6.2
    · rintro ⟨hl, h7⟩
      obtain ⟨h1, h2, h3, h4, h5, h6⟩ := hl
      rw [hss] at h7
      exact ⟨h1, h2, h3, h4, h5, (ih (p + sz)).mpr ⟨h6, h7⟩⟩

/-- Header addresses are `p` plus a multiple of 32. -/
theorem headerAddrs_mod32 {m : Mem} {bs : List Blk} (p a : Nat)
    (h : blockListAt m p bs) (ha : a ∈ headerAddrs p bs) : a % 32 = p % 32 ∧ p ≤ a := by
  induction bs generalizing p with
  | nil => simp [headerAddrs] at ha
  | cons b r ih =>
    obtain ⟨sz, st⟩ := b
    obtain ⟨_, _, h3, _, _, h6⟩ := h
    simp only [headerAddrs, List.mem_cons] at ha
    rcases ha with rfl | ha
    · omega
    · have := ih (p + sz) h6 ha
      omega

/-- A member of `headerAddrs` decomposes the sequence. -/
theorem headerAddrs_decomp {bs : List Blk} (p a : Nat)
    (ha : a ∈ headerAddrs p bs) :
    ∃ l1 b l2, bs = l1 ++ b :: l2 ∧ a = p + sizeSum l1 := by
  induction bs generalizing p with
  | nil => simp [headerAddrs] at ha
  | cons b r ih =>
    obtain ⟨sz, st⟩ := b
    simp only [headerAddrs, List.mem_cons] at ha
    rcases ha with rfl | ha
    · exact ⟨[], (sz, st), r, rfl, by simp [sizeSum]⟩
    · obtain ⟨l1, b', l2, hbs, hA⟩ := ih (p + sz) ha
      exact ⟨(sz, st) :: l1, b', l2, by rw [hbs]; rfl, by simp [sizeSum, hA]; omega⟩

/-! ## C8: next-fit cursor reset on free -/

/-- **C8**: under the next-fit policy, releasing the block currently referenced
by the next-fit cursor (`nf_ptr == HDRP(bp)`) leaves the cursor equal to
`heap_start` immediately after `mm_free` returns. -/
theorem nf_cursor_reset (s : MM) (bp : Nat) (hbp : bp ≠ 0) (hnf : s.nf = true)
    (hp : s.nf_ptr = bp - 8) : (mm_free s bp).nf_ptr = s.heap_start := by
  unfold mm_free
  rw [if_neg hbp, if_pos ⟨hnf, hp.symm⟩]

/-- Witness for `nf_cursor_reset` on a concrete next-fit heap. -/
theorem nf_cursor_reset_witness :
    (mm_free (mm_init .nextFit 4096) 4136).nf_ptr = (mm_init .nextFit 4096).heap_start :=
  nf_cursor_reset (mm_init .nextFit 4096) 4136 (by decide) (by decide) (by decide)

/-! ## C10: calloc is fatal beyond `UINT_MAX` even without `size_t` overflow -/

/-- **C10**: `mm_calloc` panics for all nonzero `nmemb, size` whose mathematical
product exceeds `UINT_MAX = 2^32 - 1` — the guard is `UINT_MAX / nmemb < size`,
irrespective of whether the product fits in the 64-bit `size_t`. -/
theorem calloc_panic_above_uintmax (s : MM) (orc : Nat → Bool) (nmemb size fuel : Nat)
    (hn : nmemb ≠ 0) (hsz : size ≠ 0) (hov : UINT_MAX < nmemb * size) :
    mm_calloc s orc nmemb size fuel = .panic := by
  unfold mm_calloc
  rw [if_neg (by tauto), if_pos]
  exact (Nat.div_lt_iff_lt_mul (Nat.pos_of_ne_zero hn)).mpr (by rw [Nat.mul_comm]; omega)

/-- Witness: a product above `UINT_MAX` that clearly fits in 64-bit `size_t`
still panics. -/
theorem calloc_panic_above_uintmax_witness :
    mm_calloc (mm_init .firstFit 4096) (fun _ => true) 3 (2 ^ 31) 5 = .panic ∧
      3 * 2 ^ 31 < 2 ^ 64 :=
  ⟨calloc_panic_above_uintmax (mm_init .firstFit 4096) (fun _ => true) 3 (2 ^ 31) 5
    (by decide) (by decide) (by decide), by decide⟩

/-! ## C5: `mm_realloc(ptr, 0)` — use after free (code bug) -/

/-- Concrete heap for the C5/C3 scenarios: first-fit, fresh segment at 4096,
so `heap_start = 4128`, `heap_end = 8160`. -/
def uafHeap : MM := mm_init .firstFit 4096

/-- One 16-byte allocation on `uafHeap`; its payload is 4136. -/
def uafAlloc : Res (MM × Nat) := mm_malloc uafHeap (fun _ => true) 16 5

/-- The result of `mm_realloc(ptr, 0)` on that allocation. -/
def uafRealloc : Res (MM × Nat) := mm_realloc uafAlloc.st (fun _ => true) uafAlloc.addr 0 5

/-- **C5** (code-bug evidence): `mm_realloc(ptr, 0)` does *not* return a null
result and does *not* leave the freed block untouched: on the concrete heap it
returns the original pointer 4136, and the freed block's header (at 4128) is
re-marked ALLOCATED with size 32, although `mm_free` alone had left it FREE
(with the coalesced size 4032). -/
theorem realloc_zero_returns_nonnull_and_touches_freed_block :
    uafAlloc.addr = 4136 ∧
    uafRealloc.isOk = true ∧
    uafRealloc.addr = 4136 ∧
    STATUSt (GETw uafRealloc.st.mem 4128) = ALLOC ∧
    SIZEt (GETw uafRealloc.st.mem 4128) = 32 ∧
    STATUSt (GETw (mm_free uafAlloc.st uafAlloc.addr).mem 4128) = FREE ∧
    SIZEt (GETw (mm_free uafAlloc.st uafAlloc.addr).mem 4128) = 4032 := by
  decide

/-! ## C3: tag agreement violated by the `mm_realloc(ptr, 0)` bug (code bug) -/

/-- C3 scenario: `x = malloc(16)`, `y = malloc(48)`, `z = malloc(16)`,
`free(x)`, then `realloc(y, 0)`. -/
def c3AllocX : Res (MM × Nat) := mm_malloc uafHeap (fun _ => true) 16 5

/-- Second allocation `y = malloc(48)` (block size 64). -/
def c3AllocY : Res (MM × Nat) := mm_malloc c3AllocX.st (fun _ => true) 48 5

/-- Third allocation `z = malloc(16)` (guard block). -/
def c3AllocZ : Res (MM × Nat) := mm_malloc c3AllocY.st (fun _ => true) 16 5

/-- State after `free(x)`. -/
def c3Freed : MM := mm_free c3AllocZ.st c3AllocX.addr

/-- State after the `realloc(y, 0)` call. -/
def c3Final : Res (MM × Nat) := mm_realloc c3Freed (fun _ => true) c3AllocY.addr 0 5

/-- **C3** (code-bug evidence): before `realloc(y, 0)` the heap walk is
coherent; after it, the first block's header claims `(96, FREE)` while the
footer at its end holds `(32, FREE)` — header ≠ footer at a quiescent point,
and the `mm_check` walk reports the structure incoherent.  The cause is the
use-after-free in `mm_realloc(·, 0)`: after `mm_free` coalesced `y` backward,
the stale header of `y` is re-read and a shrink-split is performed inside the
merged free block. -/
theorem tag_agreement_violated_after_realloc_zero :
    mmCheck c3Freed.mem c3Freed.heap_end 300 c3Freed.heap_start = true ∧
    c3Final.isOk = true ∧
    GETw c3Final.st.mem c3Final.st.heap_start = PACKt 96 FREE ∧
    GETw c3Final.st.mem (c3Final.st.heap_start + 96 - 8) = PACKt 32 FREE ∧
    mmCheck c3Final.st.mem c3Final.st.heap_end 300 c3Final.st.heap_start = false := by
  decide

/-! ## C6: calloc argument handling and zero-fill -/

/-- A successful `mm_malloc` returns `addr + TYPE_SIZE` for some block header
`addr`, hence never the null pointer. -/
theorem mm_malloc_loop_ok_addr (fuel : Nat) :
    ∀ s orc asz s' p, mm_malloc_loop s orc asz fuel = .ok (s', p) → 8 ≤ p := by
  induction fuel with
  | zero =>
    intro s orc asz s' p h
    exact absurd h (by simp [mm_malloc_loop])
  | succ n ih =>
    intro s orc asz s' p h
    unfold mm_malloc_loop at h
    rcases hg : get_free_block s asz with ⟨s1, oa⟩
    rw [hg] at h
    cases oa with
    | some addr =>
      have hp : p = addr + 8 := by
        have := congrArg Res.addr h
        simpa [Res.addr, mm_malloc_finish] using this.symm
      omega
    | none =>
      have h' : (if orc 0 = true then
          mm_malloc_loop (extend_heap s1 CHUNKSIZE) (fun k => orc (k + 1)) asz n
          else Res.panic) = Res.ok (s', p) := h
      by_cases ho : orc 0 = true
      · rw [if_pos ho] at h'
        exact ih _ _ _ _ _ h'
      · rw [if_neg ho] at h'
        exact absurd h' (by simp)

/-- **C6 (amended)**: `mm_calloc` returns a null result (state unchanged) when
either argument is zero; it panics whenever the product of the (nonzero)
arguments exceeds `UINT_MAX = 2^32 - 1` (not only on `size_t` overflow); and on
a successful allocation every one of the first `nmemb * size` payload bytes is
zero. -/
theorem calloc_amended (s : MM) (orc : Nat → Bool) (nmemb size fuel : Nat) :
    (nmemb = 0 ∨ size = 0 → mm_calloc s orc nmemb size fuel = .ok (s, 0)) ∧
    (nmemb ≠ 0 → size ≠ 0 → UINT_MAX < nmemb * size →
      mm_calloc s orc nmemb size fuel = .panic) ∧
    (nmemb * size ≤ UINT_MAX → (mm_calloc s orc nmemb size fuel).isOk = true →
      ∀ i, i < nmemb * size →
        (mm_calloc s orc nmemb size fuel).st.mem
          ((mm_calloc s orc nmemb size fuel).addr + i) = 0) := by
  refine ⟨?_, ?_, ?_⟩
  · intro h
    unfold mm_calloc
    rw [if_pos h]
  · intro hn hsz hov
    unfold mm_calloc
    rw [if_neg (by tauto), if_pos]
    exact (Nat.div_lt_iff_lt_mul (Nat.pos_of_ne_zero hn)).mpr (by rw [Nat.mul_comm]; omega)
  · intro hle hok i hi
    by_cases hz : nmemb = 0 ∨ size = 0
    · exact absurd hi (by rcases hz with h | h <;> simp [h])
    · have hguard : ¬(UINT_MAX / nmemb < size) := by
        rw [Nat.not_lt]
        exact (Nat.le_div_iff_mul_le (Nat.pos_of_ne_zero (by tauto))).mpr
          (by rw [Nat.mul_comm]; omega)
      unfold mm_calloc at hok ⊢
      rw [if_neg hz, if_neg hguard] at hok ⊢
      rcases hm : mm_malloc s orc (nmemb * size) fuel with ⟨s1, p⟩ | _ | _
      · have hp : 8 ≤ p := mm_malloc_loop_ok_addr fuel s orc _ s1 p hm
        simp only [hm]
        rw [if_neg (show ¬p = 0 by omega)]
        simp only [Res.st, Res.addr, memsetB]
        rw [if_pos ⟨by omega, by omega⟩]
      · simp [hm, Res.isOk] at hok
      · simp [hm, Res.isOk] at hok

/-- Witness for `calloc_amended`: on a concrete heap, `mm_calloc(3, 5)`
succeeds and its 8th payload byte is zero. -/
theorem calloc_amended_witness :
    (mm_calloc (mm_init .firstFit 4096) (fun _ => true) 3 5 5).st.mem
      ((mm_calloc (mm_init .firstFit 4096) (fun _ => true) 3 5 5).addr + 7) = 0 :=
  (calloc_amended (mm_init .firstFit 4096) (fun _ => true) 3 5 5).2.2
    (by decide) (by decide) 7 (by decide)

/-- **C6 (counterexample to the claim as stated)**: with `nmemb = 2` and
`size = 2^31 + 1` the mathematical product `2^32 + 2` fits comfortably in the
64-bit `size_t` — the multiplication does not overflow — yet `mm_calloc`
panics. -/
theorem calloc_claim_counterexample :
    mm_calloc (mm_init .firstFit 4096) (fun _ => true) 2 (2 ^ 31 + 1) 5 = .panic ∧
      2 * (2 ^ 31 + 1) < 2 ^ 64 := by
  constructor
  · unfold mm_calloc
    rw [if_neg (by decide), if_pos (by decide)]
  · decide

/-! ## C4: best-fit characterization -/

/-- The rendered block sequence annotated with header addresses:
entries `(addr, size, status)`. -/
def blocksWithAddr (p : Nat) : List Blk → List (Nat × Nat × Nat)
  | [] => []
  | (sz, st) :: r => (p, sz, st) :: blocksWithAddr (p + sz) r

/-- List-level reformulation of the best-fit fold performed by
`bf_get_free_block`'s loop over the block sequence. -/
def foldBF (req : Nat) : List (Nat × Nat × Nat) → Option Nat → Nat → Option Nat
  | [], acc, _ => acc
  | (a, sz, st) :: r, acc, bff =>
    if st = FREE ∧ req ≤ sz ∧ sz - req < bff then foldBF req r (some a) (sz - req)
    else foldBF req r acc bff

/-- Every annotated entry's address is at least the start address. -/
theorem foldBF_cons (req a0 sz0 st0 : Nat) (r : List (Nat × Nat × Nat))
    (acc : Option Nat) (bff : Nat) :
    foldBF req ((a0, sz0, st0) :: r) acc bff =
      if st0 = FREE ∧ req ≤ sz0 ∧ sz0 - req < bff then foldBF req r (some a0) (sz0 - req)
      else foldBF req r acc bff := rfl

theorem blocksWithAddr_lb {bs : List Blk} (p : Nat) (e : Nat × Nat × Nat)
    (he : e ∈ blocksWithAddr p bs) : p ≤ e.1 := by
  induction bs generalizing p with
  | nil => simp [blocksWithAddr] at he
  | cons b r ih =>
    obtain ⟨sz, st⟩ := b
    simp only [blocksWithAddr, List.mem_cons] at he
    rcases he with rfl | he
    · omega
    · have := ih (p + sz) he
      omega

/-- Header addresses of a rendered sequence are strictly increasing. -/
theorem blocksWithAddr_pairwise {m : Mem} {bs : List Blk} (p : Nat)
    (h : blockListAt m p bs) :
    List.Pairwise (fun e1 e2 : Nat × Nat × Nat => e1.1 < e2.1) (blocksWithAddr p bs) := by
  induction bs generalizing p with
  | nil => exact List.Pairwise.nil
  | cons b r ih =>
    obtain ⟨sz, st⟩ := b
    obtain ⟨_, _, _, h4, _, h6⟩ := h
    refine List.Pairwise.cons ?_ (ih (p + sz) h6)
    intro e he
    have := blocksWithAddr_lb (p + sz) e he
    omega

/-- Characterization of a successful best-fit fold: the result is either the
incoming accumulator (when nothing beats the incoming bound) or a candidate
entry of minimal leftover, first occurrence (least address) among ties. -/
theorem foldBF_some (req : Nat) (es : List (Nat × Nat × Nat)) :
    ∀ acc bff a,
    List.Pairwise (fun e1 e2 : Nat × Nat × Nat => e1.1 < e2.1) es →
    foldBF req es acc bff = some a →
    (acc = some a ∧ ∀ ae asz ast, (ae, asz, ast) ∈ es →
        ¬(ast = FREE ∧ req ≤ asz ∧ asz - req < bff)) ∨
    (∃ sz, (a, sz, FREE) ∈ es ∧ req ≤ sz ∧ sz - req < bff ∧
      (∀ ae asz ast, (ae, asz, ast) ∈ es → ast = FREE → req ≤ asz → asz - req < bff →
        sz - req ≤ asz - req ∧ (asz - req = sz - req → a ≤ ae))) := by
  induction es with
  | nil =>
    intro acc bff a _ h
    exact Or.inl ⟨h, by simp⟩
  | cons e0 r ih =>
    obtain ⟨a0, sz0, st0⟩ := e0
    intro acc bff a hpw h
    have hpw' := hpw.of_cons
    have hhead : ∀ e ∈ r, a0 < e.1 := fun e he => List.rel_of_pairwise_cons hpw he
    by_cases hc : st0 = FREE ∧ req ≤ sz0 ∧ sz0 - req < bff
    · rw [foldBF_cons, if_pos hc] at h
      rcases ih (some a0) (sz0 - req) a hpw' h with ⟨ha, hno⟩ | ⟨sz', hmem, hle, hlt, hmin⟩
      · have haa : a = a0 := by injection ha.symm
        subst haa
        refine Or.inr ⟨sz0, ?_, hc.2.1, hc.2.2, ?_⟩
        · rw [← hc.1]
          exact List.mem_cons_self _ _
        · intro ae asz ast hmm hf hl hfr
          rcases List.mem_cons.mp hmm with heq | hmm'
          · simp only [Prod.mk.injEq] at heq
            obtain ⟨rfl, rfl, rfl⟩ := heq
            exact ⟨Nat.le_refl _, fun _ => Nat.le_refl _⟩
          · have hne := hno ae asz ast hmm'
            constructor
            · by_contra hlt2
              exact hne ⟨hf, hl, by omega⟩
            · intro _
              exact Nat.le_of_lt (hhead (ae, asz, ast) hmm')
      · refine Or.inr ⟨sz', List.mem_cons_of_mem _ hmem, hle, by omega, ?_⟩
        intro ae asz ast hmm hf hl hfr
        rcases List.mem_cons.mp hmm with heq | hmm'
        · simp only [Prod.mk.injEq] at heq
          obtain ⟨rfl, rfl, rfl⟩ := heq
          exact ⟨by omega, fun hEq => by omega⟩
        · by_cases hfr2 : asz - req < sz0 - req
          · exact hmin ae asz ast hmm' hf hl hfr2
          · exact ⟨by omega, fun hEq => by omega⟩
    · rw [foldBF_cons, if_neg hc] at h
      rcases ih acc bff a hpw' h with ⟨ha, hno⟩ | ⟨sz', hmem, hle, hlt, hmin⟩
      · refine Or.inl ⟨ha, ?_⟩
        intro ae asz ast hmm
        rcases List.mem_cons.mp hmm with heq | hmm'
        · simp only [Prod.mk.injEq] at heq
          obtain ⟨rfl, rfl, rfl⟩ := heq
          exact hc
        · exact hno ae asz ast hmm'
      · refine Or.inr ⟨sz', List.mem_cons_of_mem _ hmem, hle, hlt, ?_⟩
        intro ae asz ast hmm hf hl hfr
        rcases List.mem_cons.mp hmm with heq | hmm'
        · simp only [Prod.mk.injEq] at heq
          obtain ⟨rfl, rfl, rfl⟩ := heq
          exact absurd ⟨hf, hl, hfr⟩ hc
        · exact hmin ae asz ast hmm' hf hl hfr

/-- The best-fit fold yields `none` iff the accumulator was `none` and no entry
qualifies against the incoming bound. -/
theorem foldBF_none (req : Nat) (es : List (Nat × Nat × Nat)) :
    ∀ acc bff,
    (foldBF req es acc bff = none ↔
      acc = none ∧ ∀ ae asz ast, (ae, asz, ast) ∈ es →
        ¬(ast = FREE ∧ req ≤ asz ∧ asz - req < bff)) := by
  induction es with
  | nil =>
    intro acc bff
    simp [foldBF]
  | cons e0 r ih =>
    obtain ⟨a0, sz0, st0⟩ := e0
    intro acc bff
    by_cases hc : st0 = FREE ∧ req ≤ sz0 ∧ sz0 - req < bff
    · rw [foldBF_cons, if_pos hc]
      constructor
      · intro h
        have := (ih (some a0) (sz0 - req)).mp h
        exact absurd this.1 (by simp)
      · rintro ⟨_, hall⟩
        exact absurd hc (hall a0 sz0 st0 (List.mem_cons_self _ _))
    · rw [foldBF_cons, if_neg hc]
      rw [ih acc bff]
      constructor
      · rintro ⟨h1, h2⟩
        refine ⟨h1, ?_⟩
        intro ae asz ast hmm
        rcases List.mem_cons.mp hmm with heq | hmm'
        · simp only [Prod.mk.injEq] at heq
          obtain ⟨rfl, rfl, rfl⟩ := heq
          exact hc
        · exact h2 ae asz ast hmm'
      · rintro ⟨h1, h2⟩
        exact ⟨h1, fun ae asz ast hmm => h2 ae asz ast (List.mem_cons_of_mem _ hmm)⟩

/-- On a rendered heap `bf_get_free_block`'s scan computes exactly the
list-level best-fit fold over the block sequence. -/
theorem bfScan_eq_foldBF {m : Mem} (req : Nat) :
    ∀ (bs : List Blk) (p fuel : Nat) (acc : Option Nat) (bff : Nat),
    blockListAt m p bs → bs.length < fuel →
    bfScan m (p + sizeSum bs) req fuel p acc bff
      = foldBF req (blocksWithAddr p bs) acc bff := by
  intro bs
  induction bs with
  | nil =>
    intro p fuel acc bff _ hfuel
    match fuel, hfuel with
    | f + 1, _ =>
      show (if p < p + sizeSum [] then _ else acc) = _
      rw [if_neg (by simp [sizeSum])]
      rfl
  | cons b r ih =>
    obtain ⟨sz, st⟩ := b
    intro p fuel acc bff hbl hfuel
    obtain ⟨h1, h2, h3, h4, h5, h6⟩ := hbl
    match fuel, hfuel with
    | f + 1, hf2 =>
      have hst : STATUSt (GETw m p) = st := by rw [h1]; exact STATUSt_PACKt sz st (by omega) h5
      have hsz : SIZEt (GETw m p) = sz := by rw [h1]; exact SIZEt_PACKt sz st (by omega) h5
      have hss : p + sizeSum ((sz, st) :: r) = p + sz + sizeSum r := by
        simp [sizeSum]; omega
      show (if p < p + sizeSum ((sz, st) :: r) then
          (if STATUSt (GETw m p) = FREE ∧ req ≤ SIZEt (GETw m p) ∧
              SIZEt (GETw m p) - req < bff then
            bfScan m (p + sizeSum ((sz, st) :: r)) req f (p + SIZEt (GETw m p)) (some p)
              (SIZEt (GETw m p) - req)
          else bfScan m (p + sizeSum ((sz, st) :: r)) req f (p + SIZEt (GETw m p)) acc bff)
        else acc) = _
      have hpos : p < p + sizeSum ((sz, st) :: r) := by
        have : sizeSum ((sz, st) :: r) = sz + sizeSum r := rfl
        omega
      rw [if_pos hpos, hst, hsz]
      have hlen : r.length < f := by simp at hf2; omega
      show (if st = FREE ∧ req ≤ sz ∧ sz - req < bff then _ else _) = _
      by_cases hc : st = FREE ∧ req ≤ sz ∧ sz - req < bff
      · rw [if_pos hc, show blocksWithAddr p ((sz, st) :: r)
            = (p, sz, st) :: blocksWithAddr (p + sz) r from rfl, foldBF_cons, if_pos hc]
        rw [hss]
        exact ih (p + sz) f (some p) (sz - req) h6 hlen
      · rw [if_neg hc, show blocksWithAddr p ((sz, st) :: r)
            = (p, sz, st) :: blocksWithAddr (p + sz) r from rfl, foldBF_cons, if_neg hc]
        rw [hss]
        exact ih (p + sz) f acc bff h6 hlen

/-- **C4 (amended)**: on any rendered heap, if `bf_get_free_block`'s scan
returns a block, that block is FREE, large enough, has leftover below
`UINT_MAX`, and among all FREE blocks that are large enough *and have leftover
below `UINT_MAX = 2^32 - 1`* it minimizes the leftover, ties resolved by first
occurrence (least header address); the scan returns `none` exactly when no
FREE block of sufficient size with leftover below `UINT_MAX` exists.  (The
unqualified claim fails: the initial `bf_fragmentation = UINT_MAX` excludes
any candidate whose leftover is at least `2^32 - 1`.) -/
theorem bf_best_fit_amended (m : Mem) (bs : List Blk) (hs he req fuel : Nat)
    (hbl : blockListAt m hs bs) (hext : hs + sizeSum bs = he) (hfuel : bs.length < fuel) :
    (∀ a, bfScan m he req fuel hs none UINT_MAX = some a →
      ∃ sz, (a, sz, FREE) ∈ blocksWithAddr hs bs ∧ req ≤ sz ∧ sz - req < UINT_MAX ∧
        (∀ ae asz ast, (ae, asz, ast) ∈ blocksWithAddr hs bs → ast = FREE → req ≤ asz →
          asz - req < UINT_MAX → sz - req ≤ asz - req ∧ (asz - req = sz - req → a ≤ ae))) ∧
    (bfScan m he req fuel hs none UINT_MAX = none ↔
      ∀ ae asz ast, (ae, asz, ast) ∈ blocksWithAddr hs bs →
        ¬(ast = FREE ∧ req ≤ asz ∧ asz - req < UINT_MAX)) := by
  subst hext
  have heq := bfScan_eq_foldBF req bs hs fuel none UINT_MAX hbl hfuel
  constructor
  · intro a ha
    rw [heq] at ha
    rcases foldBF_some req _ none UINT_MAX a (blocksWithAddr_pairwise hs hbl) ha with
      ⟨h1, _⟩ | h2
    · exact absurd h1 (by simp)
    · exact h2
  · rw [heq, foldBF_none req _ none UINT_MAX]
    simp

/-- A heap whose single (free) block has size `2^32 + 32`, so its leftover for
a 32-byte request is `2^32 ≥ UINT_MAX`. -/
def hugeMem : Mem :=
  PUTw (PUTw (fun _ => 0) 32 (PACKt (2 ^ 32 + 32) FREE))
    (32 + (2 ^ 32 + 32) - 8) (PACKt (2 ^ 32 + 32) FREE)

/-- **C4 (counterexample to the claim as stated)**: the heap renders one FREE
block of size `2^32 + 32 ≥ 32`, so a FREE block of sufficient size for a
32-byte request exists, yet `bf_get_free_block` returns `none` (null). -/
theorem bf_claim_counterexample :
    blockListAt hugeMem 32 [(2 ^ 32 + 32, FREE)] ∧
    bfScan hugeMem (32 + (2 ^ 32 + 32)) 32 10 32 none UINT_MAX = none := by
  decide

/-- A heap whose single block is allocated. -/
def allocOnlyMem : Mem :=
  PUTw (PUTw (fun _ => 0) 32 (PACKt 32 ALLOC)) 56 (PACKt 32 ALLOC)

/-- Witness for `bf_best_fit_amended`: on a heap with no free block the scan
returns `none`. -/
theorem bf_best_fit_amended_witness :
    bfScan allocOnlyMem 64 32 5 32 none UINT_MAX = none :=
  (bf_best_fit_amended allocOnlyMem [(32, ALLOC)] 32 64 32 5 (by decide) (by decide)
    (by decide)).2.mpr (by
      intro ae asz ast hmm
      simp only [blocksWithAddr, List.mem_cons, List.not_mem_nil, or_false,
        Prod.mk.injEq] at hmm
      obtain ⟨rfl, rfl, rfl⟩ := hmm
      simp [FREE, ALLOC])

/-! ## Coalesce: case-by-case rendering lemmas

`coalesce` is entered with the target block `B` already carrying FREE tags;
the four lemmas below cover the four neighbour configurations of the C code.
`hprev` is the status read of the word just below `B`'s header (the previous
block's footer, or the initial sentinel when `B` is the first block);
analogously for the following block / end sentinel. -/

/-- Neither neighbour is free: `coalesce` leaves memory untouched. -/
theorem coalesce_keep (m : Mem) (hs : Nat) (l1 l2 : List Blk) (szB : Nat)
    (hbl : blockListAt m hs (l1 ++ (szB, FREE) :: l2))
    (hprev : STATUSt (GETw m (hs + sizeSum l1 - 8)) ≠ 0)
    (hnext : STATUSt (GETw m (hs + sizeSum l1 + szB)) ≠ 0)
    (hhs : 8 ≤ hs) :
    coalesce m (hs + sizeSum l1 + 8) = (m, hs + sizeSum l1 + 8) := by
  have hsplit := (blockListAt_append hs).mp hbl
  obtain ⟨hl1, hrest⟩ := hsplit
  obtain ⟨c1, c2, c3, c4, c5, c6⟩ := hrest
  have hbp8 : hs + sizeSum l1 + 8 - 8 = hs + sizeSum l1 := by omega
  have hbp16 : hs + sizeSum l1 + 8 - 16 = hs + sizeSum l1 - 8 := by omega
  have rSz : SIZEt (GETw m (hs + sizeSum l1)) = szB := by
    rw [c1]; exact SIZEt_PACKt szB FREE (by omega) (by norm_num [FREE])
  simp only [coalesce, hbp8, hbp16, rSz]
  rw [if_neg (by intro hcon; exact hnext hcon.2), if_neg (by intro hcon; exact hprev hcon.1),
      if_neg (by intro hcon; exact hprev hcon.1)]

/-- Only the following block is free: merge forward.  The two writes are `B`'s
header and the merged footer; the result renders `l1 ++ [(szB+szN, FREE)] ++ l2'`. -/
theorem coalesce_next (m : Mem) (hs : Nat) (l1 l2' : List Blk) (szB szN : Nat)
    (hbl : blockListAt m hs (l1 ++ (szB, FREE) :: (szN, FREE) :: l2'))
    (hprev : STATUSt (GETw m (hs + sizeSum l1 - 8)) ≠ 0)
    (hhs : 8 ≤ hs)
    (hub : hs + sizeSum (l1 ++ (szB, FREE) :: (szN, FREE) :: l2') < 2 ^ 64) :
    blockListAt (coalesce m (hs + sizeSum l1 + 8)).1 hs (l1 ++ (szB + szN, FREE) :: l2') ∧
    (coalesce m (hs + sizeSum l1 + 8)).2 = hs + sizeSum l1 + 8 ∧
    (∀ a, (coalesce m (hs + sizeSum l1 + 8)).1 a ≠ m a →
      (hs + sizeSum l1 ≤ a ∧ a < hs + sizeSum l1 + 8) ∨
      (hs + sizeSum l1 + szB + szN - 8 ≤ a ∧ a < hs + sizeSum l1 + szB + szN)) := by
  have hsplit := (blockListAt_append hs).mp hbl
  obtain ⟨hl1, hrest⟩ := hsplit
  obtain ⟨c1, c2, c3, c4, c5, c6⟩ := hrest
  obtain ⟨d1, d2, d3, d4, d5, d6⟩ := c6
  have hszsum : sizeSum (l1 ++ (szB, FREE) :: (szN, FREE) :: l2')
      = sizeSum l1 + szB + szN + sizeSum l2' := by
    rw [sizeSum_append]; simp only [sizeSum]; omega
  have hvlt : PACKt (szB + szN) FREE < 2 ^ 64 := by
    apply PACKt_lt _ _ (by omega) (by omega) (by norm_num [FREE])
  have hbp8 : hs + sizeSum l1 + 8 - 8 = hs + sizeSum l1 := by omega
  have hbp16 : hs + sizeSum l1 + 8 - 16 = hs + sizeSum l1 - 8 := by omega
  have rSz : SIZEt (GETw m (hs + sizeSum l1)) = szB := by
    rw [c1]; exact SIZEt_PACKt szB FREE (by omega) (by norm_num [FREE])
  have rNpos : hs + sizeSum l1 + szB = hs + sizeSum l1 + szB := rfl
  have rNst : STATUSt (GETw m (hs + sizeSum l1 + szB)) = 0 := by
    rw [d1]; exact STATUSt_PACKt szN FREE (by omega) (by norm_num [FREE])
  have rNsz : SIZEt (GETw m (hs + sizeSum l1 + szB)) = szN := by
    rw [d1]; exact SIZEt_PACKt szN FREE (by omega) (by norm_num [FREE])
  have hco : coalesce m (hs + sizeSum l1 + 8)
      = (PUTw (PUTw m (hs + sizeSum l1) (PACKt (szB + szN) FREE))
          (hs + sizeSum l1 + szB + szN - 8) (PACKt (szB + szN) FREE),
         hs + sizeSum l1 + 8) := by
    simp only [coalesce, hbp8, hbp16, rSz, rNst, rNsz]
    rw [if_pos ⟨hprev, trivial⟩]
    have hg : GETw (PUTw m (hs + sizeSum l1) (PACKt (szB + szN) FREE)) (hs + sizeSum l1)
        = PACKt (szB + szN) FREE := GETw_PUTw_same _ _ _ hvlt
    rw [hg, SIZEt_PACKt (szB + szN) FREE (by omega) (by norm_num [FREE]),
        show hs + sizeSum l1 + (szB + szN) - 8 = hs + sizeSum l1 + szB + szN - 8 from by omega]
  rw [hco]
  have hfr : ∀ a, a < hs + sizeSum l1 ∨
      (hs + sizeSum l1 + 8 ≤ a ∧ a < hs + sizeSum l1 + szB + szN - 8) ∨
      hs + sizeSum l1 + szB + szN ≤ a →
      PUTw (PUTw m (hs + sizeSum l1) (PACKt (szB + szN) FREE))
        (hs + sizeSum l1 + szB + szN - 8) (PACKt (szB + szN) FREE) a = m a := by
    intro a ha
    rw [PUTw_out _ _ _ _ (by omega), PUTw_out _ _ _ _ (by omega)]
  refine ⟨?_, rfl, ?_⟩
  · rw [blockListAt_append]
    constructor
    · exact blockListAt_congr hs (fun a ha1 ha2 => (hfr a (by omega)).symm) hl1
    · refine ⟨?_, ?_, by omega, by omega, by norm_num [FREE], ?_⟩
      · rw [GETw_PUTw_ne _ _ _ _ (by omega)]
        exact GETw_PUTw_same _ _ _ hvlt
      · rw [show hs + sizeSum l1 + (szB + szN) - 8 = hs + sizeSum l1 + szB + szN - 8 from by
          omega]
        exact GETw_PUTw_same _ _ _ hvlt
      · rw [show hs + sizeSum l1 + (szB + szN) = hs + sizeSum l1 + szB + szN from by omega]
        exact blockListAt_congr (hs + sizeSum l1 + szB + szN)
          (fun a ha1 ha2 => (hfr a (by omega)).symm) d6
  · intro a hne
    by_contra hcon
    push_neg at hcon
    exact hne (hfr a (by omega))

/-- Only the preceding block is free: merge backward.  The merged block keeps
the previous block's header position; size written is `szB + szP`. -/
theorem coalesce_prev (m : Mem) (hs : Nat) (l1' l2 : List Blk) (szP szB : Nat)
    (hbl : blockListAt m hs (l1' ++ (szP, FREE) :: (szB, FREE) :: l2))
    (hnext : STATUSt (GETw m (hs + sizeSum l1' + szP + szB)) ≠ 0)
    (hhs : 8 ≤ hs)
    (hub : hs + sizeSum (l1' ++ (szP, FREE) :: (szB, FREE) :: l2) < 2 ^ 64) :
    blockListAt (coalesce m (hs + sizeSum l1' + szP + 8)).1 hs
      (l1' ++ (szB + szP, FREE) :: l2) ∧
    (coalesce m (hs + sizeSum l1' + szP + 8)).2 = hs + sizeSum l1' + 8 ∧
    (∀ a, (coalesce m (hs + sizeSum l1' + szP + 8)).1 a ≠ m a →
      (hs + sizeSum l1' ≤ a ∧ a < hs + sizeSum l1' + 8) ∨
      (hs + sizeSum l1' + szP + szB - 8 ≤ a ∧ a < hs + sizeSum l1' + szP + szB)) := by
  have hsplit := (blockListAt_append hs).mp hbl
  obtain ⟨hl1, hrest⟩ := hsplit
  obtain ⟨p1, p2, p3, p4, p5, prest⟩ := hrest
  obtain ⟨c1, c2, c3, c4, c5, c6⟩ := prest
  have hc1 : GETw m (hs + sizeSum l1' + szP) = PACKt szB FREE := c1
  have hvlt : PACKt (szB + szP) FREE < 2 ^ 64 := by
    apply PACKt_lt _ _ ?_ (by omega) (by norm_num [FREE])
    rw [sizeSum_append] at hub
    simp only [sizeSum] at hub
    omega
  have hbp8 : hs + sizeSum l1' + szP + 8 - 8 = hs + sizeSum l1' + szP := by omega
  have hbp16 : hs + sizeSum l1' + szP + 8 - 16 = hs + sizeSum l1' + szP - 8 := by omega
  have hftrP : hs + sizeSum l1' + szP - 8 = hs + sizeSum l1' + szP - 8 := rfl
  have p2' : GETw m (hs + sizeSum l1' + szP - 8) = PACKt szP FREE := by
    have : hs + sizeSum l1' + szP - 8 = hs + sizeSum l1' + szP - 8 := rfl
    exact p2
  have rPst : STATUSt (GETw m (hs + sizeSum l1' + szP - 8)) = 0 := by
    rw [p2']; exact STATUSt_PACKt szP FREE (by omega) (by norm_num [FREE])
  have rPsz : SIZEt (GETw m (hs + sizeSum l1' + szP - 8)) = szP := by
    rw [p2']; exact SIZEt_PACKt szP FREE (by omega) (by norm_num [FREE])
  have rSz : SIZEt (GETw m (hs + sizeSum l1' + szP)) = szB := by
    rw [hc1]; exact SIZEt_PACKt szB FREE (by omega) (by norm_num [FREE])
  have hPpos : hs + sizeSum l1' + szP + 8 - szP - 8 = hs + sizeSum l1' := by omega
  have hNpos : hs + sizeSum l1' + szP + szB = hs + sizeSum l1' + szP + szB := rfl
  have hco : coalesce m (hs + sizeSum l1' + szP + 8)
      = (PUTw (PUTw m (hs + sizeSum l1') (PACKt (szB + szP) FREE))
          (hs + sizeSum l1' + szP + szB - 8) (PACKt (szB + szP) FREE),
         hs + sizeSum l1' + 8) := by
    simp only [coalesce, hbp8, hbp16, rPst, rPsz, rSz, hPpos]
    rw [if_neg (by intro hcon; exact hcon.1 rfl), if_pos ⟨trivial, hnext⟩]
    have hg : GETw (PUTw m (hs + sizeSum l1') (PACKt (szB + szP) FREE))
        (hs + sizeSum l1' + szP) = PACKt szB FREE := by
      rw [GETw_PUTw_ne _ _ _ _ (by omega)]
      exact hc1
    rw [hg, SIZEt_PACKt szB FREE (by omega) (by norm_num [FREE]),
        show hs + sizeSum l1' + szP + 8 - szP = hs + sizeSum l1' + 8 from by omega]
  rw [hco]
  have hfr : ∀ a, a < hs + sizeSum l1' ∨
      (hs + sizeSum l1' + 8 ≤ a ∧ a < hs + sizeSum l1' + szP + szB - 8) ∨
      hs + sizeSum l1' + szP + szB ≤ a →
      PUTw (PUTw m (hs + sizeSum l1') (PACKt (szB + szP) FREE))
        (hs + sizeSum l1' + szP + szB - 8) (PACKt (szB + szP) FREE) a = m a := by
    intro a ha
    rw [PUTw_out _ _ _ _ (by omega), PUTw_out _ _ _ _ (by omega)]
  refine ⟨?_, rfl, ?_⟩
  · rw [blockListAt_append]
    constructor
    · exact blockListAt_congr hs (fun a ha1 ha2 => (hfr a (by omega)).symm) hl1
    · refine ⟨?_, ?_, by omega, by omega, by norm_num [FREE], ?_⟩
      · rw [GETw_PUTw_ne _ _ _ _ (by omega)]
        exact GETw_PUTw_same _ _ _ hvlt
      · rw [show hs + sizeSum l1' + (szB + szP) - 8 = hs + sizeSum l1' + szP + szB - 8 from by
          omega]
        exact GETw_PUTw_same _ _ _ hvlt
      · rw [show hs + sizeSum l1' + (szB + szP) = hs + sizeSum l1' + szP + szB from by omega]
        exact blockListAt_congr (hs + sizeSum l1' + szP + szB)
          (fun a ha1 ha2 => (hfr a (by omega)).symm) c6
  · intro a hne
    by_contra hcon
    push_neg at hcon
    exact hne (hfr a (by omega))

/-- Both neighbours are free: merge all three blocks; size written is
`szB + szP + szN`. -/
theorem coalesce_both (m : Mem) (hs : Nat) (l1' l2' : List Blk) (szP szB szN : Nat)
    (hbl : blockListAt m hs (l1' ++ (szP, FREE) :: (szB, FREE) :: (szN, FREE) :: l2'))
    (hhs : 8 ≤ hs)
    (hub : hs + sizeSum (l1' ++ (szP, FREE) :: (szB, FREE) :: (szN, FREE) :: l2') < 2 ^ 64) :
    blockListAt (coalesce m (hs + sizeSum l1' + szP + 8)).1 hs
      (l1' ++ (szB + szP + szN, FREE) :: l2') ∧
    (coalesce m (hs + sizeSum l1' + szP + 8)).2 = hs + sizeSum l1' + 8 ∧
    (∀ a, (coalesce m (hs + sizeSum l1' + szP + 8)).1 a ≠ m a →
      (hs + sizeSum l1' ≤ a ∧ a < hs + sizeSum l1' + 8) ∨
      (hs + sizeSum l1' + szP + szB + szN - 8 ≤ a ∧
        a < hs + sizeSum l1' + szP + szB + szN)) := by
  have hsplit := (blockListAt_append hs).mp hbl
  obtain ⟨hl1, hrest⟩ := hsplit
  obtain ⟨p1, p2, p3, p4, p5, prest⟩ := hrest
  obtain ⟨c1, c2, c3, c4, c5, c6⟩ := prest
  obtain ⟨d1, d2, d3, d4, d5, d6⟩ := c6
  have hc1 : GETw m (hs + sizeSum l1' + szP) = PACKt szB FREE := c1
  have hd1 : GETw m (hs + sizeSum l1' + szP + szB) = PACKt szN FREE := d1
  have hvlt : PACKt (szB + szP + szN) FREE < 2 ^ 64 := by
    apply PACKt_lt _ _ ?_ (by omega) (by norm_num [FREE])
    rw [sizeSum_append] at hub
    simp only [sizeSum] at hub
    omega
  have hbp8 : hs + sizeSum l1' + szP + 8 - 8 = hs + sizeSum l1' + szP := by omega
  have hbp16 : hs + sizeSum l1' + szP + 8 - 16 = hs + sizeSum l1' + szP - 8 := by omega
  have p2' : GETw m (hs + sizeSum l1' + szP - 8) = PACKt szP FREE := p2
  have rPst : STATUSt (GETw m (hs + sizeSum l1' + szP - 8)) = 0 := by
    rw [p2']; exact STATUSt_PACKt szP FREE (by omega) (by norm_num [FREE])
  have rPsz : SIZEt (GETw m (hs + sizeSum l1' + szP - 8)) = szP := by
    rw [p2']; exact SIZEt_PACKt szP FREE (by omega) (by norm_num [FREE])
  have rSz : SIZEt (GETw m (hs + sizeSum l1' + szP)) = szB := by
    rw [hc1]; exact SIZEt_PACKt szB FREE (by omega) (by norm_num [FREE])
  have rNst : STATUSt (GETw m (hs + sizeSum l1' + szP + szB)) = 0 := by
    rw [hd1]; exact STATUSt_PACKt szN FREE (by omega) (by norm_num [FREE])
  have rNsz : SIZEt (GETw m (hs + sizeSum l1' + szP + szB)) = szN := by
    rw [hd1]; exact SIZEt_PACKt szN FREE (by omega) (by norm_num [FREE])
  have hPpos : hs + sizeSum l1' + szP + 8 - szP - 8 = hs + sizeSum l1' := by omega
  have hco : coalesce m (hs + sizeSum l1' + szP + 8)
      = (PUTw (PUTw m (hs + sizeSum l1') (PACKt (szB + szP + szN) FREE))
          (hs + sizeSum l1' + szP + szB + szN - 8) (PACKt (szB + szP + szN) FREE),
         hs + sizeSum l1' + 8) := by
    simp only [coalesce, hbp8, hbp16, rPst, rPsz, rSz, rNst, rNsz, hPpos]
    rw [if_neg (by intro hcon; exact hcon.1 rfl),
        if_neg (by intro hcon; exact hcon.2 rfl), if_pos ⟨trivial, trivial⟩]
    have hg : GETw (PUTw m (hs + sizeSum l1') (PACKt (szB + szP + szN) FREE))
        (hs + sizeSum l1' + szP) = PACKt szB FREE := by
      rw [GETw_PUTw_ne _ _ _ _ (by omega)]
      exact hc1
    have hg2 : GETw (PUTw m (hs + sizeSum l1') (PACKt (szB + szP + szN) FREE))
        (hs + sizeSum l1' + szP + 8 + szB - 8) = PACKt szN FREE := by
      rw [show hs + sizeSum l1' + szP + 8 + szB - 8 = hs + sizeSum l1' + szP + szB from by
        omega]
      rw [GETw_PUTw_ne _ _ _ _ (by omega)]
      exact hd1
    rw [hg, SIZEt_PACKt szB FREE (by omega) (by norm_num [FREE]), hg2,
        SIZEt_PACKt szN FREE (by omega) (by norm_num [FREE]),
        show hs + sizeSum l1' + szP + 8 + szB - 8 + szN - 8
          = hs + sizeSum l1' + szP + szB + szN - 8 from by omega,
        show hs + sizeSum l1' + szP + 8 - szP = hs + sizeSum l1' + 8 from by omega]
  rw [hco]
  have hfr : ∀ a, a < hs + sizeSum l1' ∨
      (hs + sizeSum l1' + 8 ≤ a ∧ a < hs + sizeSum l1' + szP + szB + szN - 8) ∨
      hs + sizeSum l1' + szP + szB + szN ≤ a →
      PUTw (PUTw m (hs + sizeSum l1') (PACKt (szB + szP + szN) FREE))
        (hs + sizeSum l1' + szP + szB + szN - 8) (PACKt (szB + szP + szN) FREE) a = m a := by
    intro a ha
    rw [PUTw_out _ _ _ _ (by omega), PUTw_out _ _ _ _ (by omega)]
  refine ⟨?_, rfl, ?_⟩
  · rw [blockListAt_append]
    constructor
    · exact blockListAt_congr hs (fun a ha1 ha2 => (hfr a (by omega)).symm) hl1
    · refine ⟨?_, ?_, by omega, by omega, by norm_num [FREE], ?_⟩
      · rw [GETw_PUTw_ne _ _ _ _ (by omega)]
        exact GETw_PUTw_same _ _ _ hvlt
      · rw [show hs + sizeSum l1' + (szB + szP + szN) - 8
            = hs + sizeSum l1' + szP + szB + szN - 8 from by omega]
        exact GETw_PUTw_same _ _ _ hvlt
      · rw [show hs + sizeSum l1' + (szB + szP + szN)
            = hs + sizeSum l1' + szP + szB + szN from by omega]
        exact blockListAt_congr (hs + sizeSum l1' + szP + szB + szN)
          (fun a ha1 ha2 => (hfr a (by omega)).symm) d6
  · intro a hne
    by_contra hcon
    push_neg at hcon
    exact hne (hfr a (by omega))

/-- Writing `PACK(sz, st')` into both boundary tags of one block re-renders the
sequence with that block's status replaced; all other bytes are untouched. -/
theorem mark_block (m : Mem) (hs : Nat) (l1 l2 : List Blk) (sz st st' : Nat)
    (hbl : blockListAt m hs (l1 ++ (sz, st) :: l2)) (hst' : st' < 2)
    (hub : hs + sizeSum (l1 ++ (sz, st) :: l2) < 2 ^ 64) :
    blockListAt (PUTw (PUTw m (hs + sizeSum l1) (PACKt sz st'))
        (hs + sizeSum l1 + sz - 8) (PACKt sz st')) hs (l1 ++ (sz, st') :: l2) ∧
    (∀ a, PUTw (PUTw m (hs + sizeSum l1) (PACKt sz st'))
        (hs + sizeSum l1 + sz - 8) (PACKt sz st') a ≠ m a →
      (hs + sizeSum l1 ≤ a ∧ a < hs + sizeSum l1 + 8) ∨
      (hs + sizeSum l1 + sz - 8 ≤ a ∧ a < hs + sizeSum l1 + sz)) := by
  have hsplit := (blockListAt_append hs).mp hbl
  obtain ⟨hl1, hrest⟩ := hsplit
  obtain ⟨c1, c2, c3, c4, c5, c6⟩ := hrest
  have hszt : sizeSum (l1 ++ (sz, st) :: l2) = sizeSum l1 + sz + sizeSum l2 := by
    rw [sizeSum_append]; simp only [sizeSum]; omega
  have hvlt : PACKt sz st' < 2 ^ 64 := by
    apply PACKt_lt _ _ (by omega) (by omega) hst'
  have hfr : ∀ a, a < hs + sizeSum l1 ∨
      (hs + sizeSum l1 + 8 ≤ a ∧ a < hs + sizeSum l1 + sz - 8) ∨
      hs + sizeSum l1 + sz ≤ a →
      PUTw (PUTw m (hs + sizeSum l1) (PACKt sz st'))
        (hs + sizeSum l1 + sz - 8) (PACKt sz st') a = m a := by
    intro a ha
    rw [PUTw_out _ _ _ _ (by omega), PUTw_out _ _ _ _ (by omega)]
  refine ⟨?_, ?_⟩
  · rw [blockListAt_append]
    constructor
    · exact blockListAt_congr hs (fun a ha1 ha2 => (hfr a (by omega)).symm) hl1
    · refine ⟨?_, ?_, c3, c4, hst', ?_⟩
      · rw [GETw_PUTw_ne _ _ _ _ (by omega)]
        exact GETw_PUTw_same _ _ _ hvlt
      · exact GETw_PUTw_same _ _ _ hvlt
      · exact blockListAt_congr (hs + sizeSum l1 + sz)
          (fun a ha1 ha2 => (hfr a (by omega)).symm) c6
  · intro a hne
    by_contra hcon
    push_neg at hcon
    exact hne (hfr a (by omega))

/-- The memory after `mm_free(bp)` (for non-null `bp`) is: write FREE into both
tags of the block (size read from its header), then coalesce. -/
theorem mm_free_mem_eq (s : MM) (bp szB : Nat) (hbp : bp ≠ 0)
    (hrd : SIZEt (GETw s.mem (bp - 8)) = szB) (h8 : szB % 8 = 0) (hub : szB < 2 ^ 64) :
    (mm_free s bp).mem =
      (coalesce (PUTw (PUTw s.mem (bp - 8) (PACKt szB FREE))
        (bp - 8 + szB - 8) (PACKt szB FREE)) bp).1 := by
  have hmem1 : (if s.nf = true ∧ bp - 8 = s.nf_ptr then
      { s with nf_ptr := s.heap_start } else s).mem = s.mem := by
    by_cases hc : s.nf = true ∧ bp - 8 = s.nf_ptr
    · rw [if_pos hc]
    · rw [if_neg hc]
  simp only [mm_free, hmem1, hrd]
  rw [if_neg hbp]
  have hg : GETw (PUTw s.mem (bp - 8) (PACKt szB FREE)) (bp - 8) = PACKt szB FREE :=
    GETw_PUTw_same _ _ _ (PACKt_lt _ _ (by omega) (by omega) (by norm_num [FREE]))
  simp only [hmem1, hrd, hg, SIZEt_PACKt szB FREE h8 (by norm_num [FREE])]

/-- **C2**: freeing a valid allocated block of a well-formed heap whose block
sequence has no two adjacent FREE blocks yields a heap that again renders a
block sequence (same total size) with no two adjacent FREE blocks — immediate
coalescing restores the invariant for every neighbour configuration. -/
theorem free_no_adjacent_free (s : MM) (bs l1 l2 : List Blk) (szB bp : Nat)
    (hwf : WF s bs) (hbs : bs = l1 ++ (szB, ALLOC) :: l2)
    (hnaf : NoAdjFree bs) (hbp : bp = s.heap_start + sizeSum l1 + 8) :
    ∃ bs', blockListAt (mm_free s bp).mem s.heap_start bs' ∧
      sizeSum bs' = sizeSum bs ∧ NoAdjFree bs' := by
  obtain ⟨hbl, hext, hsL, hsR, h32, hlb, hbrk, hueb, hnil, hnfp, hnfb⟩ := hwf
  subst hbs
  subst hbp
  obtain ⟨hl1, hrest⟩ := (blockListAt_append s.heap_start).mp hbl
  obtain ⟨c1, c2, c3, c4, c5, c6⟩ := hrest
  have hub' : s.heap_start + sizeSum (l1 ++ (szB, ALLOC) :: l2) < 2 ^ 64 := by
    rw [hext]; exact hueb
  have htot : sizeSum (l1 ++ (szB, ALLOC) :: l2) = sizeSum l1 + szB + sizeSum l2 := by
    rw [sizeSum_append]; simp only [sizeSum]; omega
  obtain ⟨hm2, hm2fr⟩ := mark_block s.mem s.heap_start l1 l2 szB ALLOC FREE hbl
    (by norm_num [FREE]) hub'
  set m2 := PUTw (PUTw s.mem (s.heap_start + sizeSum l1) (PACKt szB FREE))
      (s.heap_start + sizeSum l1 + szB - 8) (PACKt szB FREE) with hm2def
  have hrd : SIZEt (GETw s.mem (s.heap_start + sizeSum l1 + 8 - 8)) = szB := by
    rw [show s.heap_start + sizeSum l1 + 8 - 8 = s.heap_start + sizeSum l1 from by omega, c1]
    exact SIZEt_PACKt szB ALLOC (by omega) (by norm_num [ALLOC])
  have hfeq : (mm_free s (s.heap_start + sizeSum l1 + 8)).mem
      = (coalesce m2 (s.heap_start + sizeSum l1 + 8)).1 := by
    rw [mm_free_mem_eq s _ szB (by omega) hrd (by omega) (by omega), hm2def,
        show s.heap_start + sizeSum l1 + 8 - 8 = s.heap_start + sizeSum l1 from by omega]
  have hprevw : GETw m2 (s.heap_start + sizeSum l1 - 8)
      = GETw s.mem (s.heap_start + sizeSum l1 - 8) := by
    rw [hm2def, GETw_PUTw_ne _ _ _ _ (by omega), GETw_PUTw_ne _ _ _ _ (by omega)]
  have hnextw : GETw m2 (s.heap_start + sizeSum l1 + szB)
      = GETw s.mem (s.heap_start + sizeSum l1 + szB) := by
    rw [hm2def, GETw_PUTw_ne _ _ _ _ (by omega), GETw_PUTw_ne _ _ _ _ (by omega)]
  rw [NoAdjFree, List.chain'_append, List.chain'_cons'] at hnaf
  obtain ⟨hA, ⟨hBhead, hC⟩, hAB⟩ := hnaf
  have hNext : (STATUSt (GETw m2 (s.heap_start + sizeSum l1 + szB)) ≠ 0 ∧
      ∀ y ∈ l2.head?, y.2 ≠ FREE) ∨ (∃ szN l2', l2 = (szN, FREE) :: l2') := by
    cases l2 with
    | nil =>
      left
      refine ⟨?_, by simp⟩
      rw [hnextw, show s.heap_start + sizeSum l1 + szB = s.heap_end from by
        rw [← hext, htot]; simp only [sizeSum]; omega, hsR]
      norm_num [ALLOC]
    | cons hd l2' =>
      obtain ⟨szN, stN⟩ := hd
      obtain ⟨d1, d2, d3, d4, d5, d6⟩ := c6
      rcases (show stN = 0 ∨ stN = 1 from by omega) with rfl | rfl
      · right; exact ⟨szN, l2', rfl⟩
      · left
        refine ⟨?_, ?_⟩
        · rw [hnextw, d1, STATUSt_PACKt szN 1 (by omega) (by omega)]
          norm_num
        · intro y hy
          simp only [List.head?_cons, Option.mem_def, Option.some.injEq] at hy
          rw [← hy]
          norm_num [FREE]
  have hPrev : (STATUSt (GETw m2 (s.heap_start + sizeSum l1 - 8)) ≠ 0 ∧
      ∀ x ∈ l1.getLast?, x.2 ≠ FREE) ∨ (∃ l1' szP, l1 = l1' ++ [(szP, FREE)]) := by
    rcases List.eq_nil_or_concat l1 with rfl | ⟨l1', P, hconc⟩
    · left
      refine ⟨?_, by simp⟩
      rw [hprevw, show s.heap_start + sizeSum ([] : List Blk) - 8 = s.heap_start - 8 from by
        simp [sizeSum], hsL]
      norm_num [ALLOC]
    · rw [List.concat_eq_append] at hconc
      subst hconc
      obtain ⟨szP, stP⟩ := P
      obtain ⟨hl1', hPr⟩ := (blockListAt_append s.heap_start).mp hl1
      obtain ⟨p1, p2, p3, p4, p5, _⟩ := hPr
      have hsum : sizeSum (l1' ++ [(szP, stP)]) = sizeSum l1' + szP := by
        rw [sizeSum_append]; simp [sizeSum]
      rcases (show stP = 0 ∨ stP = 1 from by omega) with rfl | rfl
      · right; exact ⟨l1', szP, rfl⟩
      · left
        refine ⟨?_, ?_⟩
        · rw [hprevw, show s.heap_start + sizeSum (l1' ++ [(szP, 1)]) - 8
              = s.heap_start + sizeSum l1' + szP - 8 from by rw [hsum]; omega, p2,
            STATUSt_PACKt szP 1 (by omega) (by omega)]
          norm_num
        · intro x hx
          simp only [List.getLast?_concat, Option.mem_def, Option.some.injEq] at hx
          rw [← hx]
          norm_num [FREE]
  rcases hPrev with ⟨hpa, hpl⟩ | ⟨l1', szP, rfl⟩ <;>
    rcases hNext with ⟨hna, hnl⟩ | ⟨szN, l2', rfl⟩
  · -- neither neighbour free: no merge
    have hco := coalesce_keep m2 s.heap_start l1 l2 szB hm2 hpa hna (by omega)
    refine ⟨l1 ++ (szB, FREE) :: l2, ?_, ?_, ?_⟩
    · rw [hfeq, hco]
      exact hm2
    · rw [sizeSum_append, htot]; simp only [sizeSum]; omega
    · rw [NoAdjFree, List.chain'_append, List.chain'_cons']
      refine ⟨hA, ⟨?_, hC⟩, ?_⟩
      · intro y hy
        exact fun hcon => hnl y hy hcon.2
      · intro x hx y hy
        simp only [List.head?_cons, Option.mem_def, Option.some.injEq] at hy
        intro hcon
        exact hpl x hx hcon.1
  · -- next free only: merge forward
    have hco := coalesce_next m2 s.heap_start l1 l2' szB szN hm2 hpa (by omega)
      (by rw [show sizeSum (l1 ++ (szB, FREE) :: (szN, FREE) :: l2')
            = sizeSum (l1 ++ (szB, ALLOC) :: (szN, FREE) :: l2') from by
            rw [sizeSum_append, sizeSum_append]; simp [sizeSum]]
          exact hub')
    obtain ⟨hren, _, _⟩ := hco
    refine ⟨l1 ++ (szB + szN, FREE) :: l2', ?_, ?_, ?_⟩
    · rw [hfeq]
      exact hren
    · rw [sizeSum_append, htot]; simp only [sizeSum]; omega
    · rw [List.chain'_cons'] at hC
      obtain ⟨hCh, hC'⟩ := hC
      rw [NoAdjFree, List.chain'_append, List.chain'_cons']
      refine ⟨hA, ⟨?_, hC'⟩, ?_⟩
      · intro y hy
        exact fun hcon => (hCh y hy) ⟨rfl, hcon.2⟩
      · intro x hx y hy
        simp only [List.head?_cons, Option.mem_def, Option.some.injEq] at hy
        intro hcon
        exact hpl x hx hcon.1
  · -- previous free only: merge backward
    have hshape : (l1' ++ [(szP, FREE)]) ++ (szB, FREE) :: l2
        = l1' ++ (szP, FREE) :: (szB, FREE) :: l2 := by simp
    rw [hshape] at hm2
    have hsum : sizeSum (l1' ++ [(szP, FREE)]) = sizeSum l1' + szP := by
      rw [sizeSum_append]; simp [sizeSum]
    have hna' : STATUSt (GETw m2 (s.heap_start + sizeSum l1' + szP + szB)) ≠ 0 := by
      rw [show s.heap_start + sizeSum l1' + szP + szB
          = s.heap_start + sizeSum (l1' ++ [(szP, FREE)]) + szB from by rw [hsum]; omega]
      exact hna
    have hco := coalesce_prev m2 s.heap_start l1' l2 szP szB hm2 hna' (by omega)
      (by rw [show sizeSum (l1' ++ (szP, FREE) :: (szB, FREE) :: l2)
            = sizeSum ((l1' ++ [(szP, FREE)]) ++ (szB, ALLOC) :: l2) from by
            rw [sizeSum_append, sizeSum_append]; simp [sizeSum]; omega]
          exact hub')
    obtain ⟨hren, _, _⟩ := hco
    refine ⟨l1' ++ (szB + szP, FREE) :: l2, ?_, ?_, ?_⟩
    · rw [hfeq, show s.heap_start + sizeSum (l1' ++ [(szP, FREE)]) + 8
          = s.heap_start + sizeSum l1' + szP + 8 from by rw [hsum]; omega]
      exact hren
    · rw [sizeSum_append, htot, hsum]; simp only [sizeSum]; omega
    · rw [List.chain'_append] at hA
      obtain ⟨hA1, _, hA3⟩ := hA
      rw [NoAdjFree, List.chain'_append, List.chain'_cons']
      refine ⟨hA1, ⟨?_, hC⟩, ?_⟩
      · intro y hy
        exact fun hcon => hnl y hy hcon.2
      · intro x hx y hy
        simp only [List.head?_cons, Option.mem_def, Option.some.injEq] at hy
        intro hcon
        exact (hA3 x hx (szP, FREE) (by simp)) ⟨hcon.1, rfl⟩
  · -- both neighbours free: merge all three
    have hshape : (l1' ++ [(szP, FREE)]) ++ (szB, FREE) :: (szN, FREE) :: l2'
        = l1' ++ (szP, FREE) :: (szB, FREE) :: (szN, FREE) :: l2' := by simp
    rw [hshape] at hm2
    have hsum : sizeSum (l1' ++ [(szP, FREE)]) = sizeSum l1' + szP := by
      rw [sizeSum_append]; simp [sizeSum]
    have hco := coalesce_both m2 s.heap_start l1' l2' szP szB szN hm2 (by omega)
      (by rw [show sizeSum (l1' ++ (szP, FREE) :: (szB, FREE) :: (szN, FREE) :: l2')
            = sizeSum ((l1' ++ [(szP, FREE)]) ++ (szB, ALLOC) :: (szN, FREE) :: l2') from by
            rw [sizeSum_append, sizeSum_append]; simp [sizeSum]; omega]
          exact hub')
    obtain ⟨hren, _, _⟩ := hco
    refine ⟨l1' ++ (szB + szP + szN, FREE) :: l2', ?_, ?_, ?_⟩
    · rw [hfeq, show s.heap_start + sizeSum (l1' ++ [(szP, FREE)]) + 8
          = s.heap_start + sizeSum l1' + szP + 8 from by rw [hsum]; omega]
      exact hren
    · rw [sizeSum_append, htot, hsum]; simp only [sizeSum]; omega
    · rw [List.chain'_append] at hA
      obtain ⟨hA1, _, hA3⟩ := hA
      rw [List.chain'_cons'] at hC
      obtain ⟨hCh, hC'⟩ := hC
      rw [NoAdjFree, List.chain'_append, List.chain'_cons']
      refine ⟨hA1, ⟨?_, hC'⟩, ?_⟩
      · intro y hy
        exact fun hcon => (hCh y hy) ⟨rfl, hcon.2⟩
      · intro x hx y hy
        simp only [List.head?_cons, Option.mem_def, Option.some.injEq] at hy
        intro hcon
        exact (hA3 x hx (szP, FREE) (by simp)) ⟨hcon.1, rfl⟩

/-- Witness for `free_no_adjacent_free` on a concrete heap: one allocated and
one free block, freeing the allocated one. -/
theorem free_no_adjacent_free_witness :
    ∃ bs', blockListAt (mm_free uafAlloc.st 4136).mem uafAlloc.st.heap_start bs' ∧
      sizeSum bs' = sizeSum [(32, ALLOC), (4000, FREE)] ∧ NoAdjFree bs' :=
  free_no_adjacent_free uafAlloc.st [(32, ALLOC), (4000, FREE)] [] [(4000, FREE)] 32 4136
    ⟨by decide, by decide, by decide, by decide, by decide, by decide, by decide, by decide,
      by decide, by decide, by decide⟩ (by decide) (by decide) (by decide)

/-! ## Machinery for `mm_malloc`: scan soundness, splitting, heap extension -/

theorem allocSize_facts (size : Nat) :
    allocSize size % 32 = 0 ∧ 32 ≤ allocSize size ∧ size + 2 * TYPE_SIZE ≤ allocSize size := by
  unfold allocSize TYPE_SIZE BS
  omega

theorem headerAddrs_append (p : Nat) (l1 l2 : List Blk) :
    headerAddrs p (l1 ++ l2) = headerAddrs p l1 ++ headerAddrs (p + sizeSum l1) l2 := by
  induction l1 generalizing p with
  | nil => simp [headerAddrs, sizeSum]
  | cons b r ih =>
    obtain ⟨sz, st⟩ := b
    have hstep : headerAddrs p ((sz, st) :: r ++ l2) = p :: headerAddrs (p + sz) (r ++ l2) := rfl
    rw [hstep, ih (p + sz)]
    show _ = (p :: headerAddrs (p + sz) r) ++ headerAddrs (p + sizeSum ((sz, st) :: r)) l2
    rw [List.cons_append, show p + sizeSum ((sz, st) :: r) = p + sz + sizeSum r from by
      simp only [sizeSum]; omega]

/-- Step equations for the first-fit scan. -/
theorem ffScan_step (m : Mem) (he sz f p : Nat) (hlt : p < he) :
    ffScan m he sz (f + 1) p =
      if STATUSt (GETw m p) = FREE ∧ sz ≤ SIZEt (GETw m p) then some p
      else ffScan m he sz f (p + SIZEt (GETw m p)) := by
  show (if p < he then _ else none) = _
  rw [if_pos hlt]

theorem nfScan_at_he (m : Mem) (hs he sz nf0 f p : Nat) (hpe : p = he) :
    nfScan m hs he sz nf0 (f + 1) p =
      if hs = nf0 then none else nfScan m hs he sz nf0 f hs := by
  show (if p = he then _ else _) = _
  rw [if_pos hpe]

theorem nfScan_go (m : Mem) (hs he sz nf0 f p : Nat) (hpe : p ≠ he) :
    nfScan m hs he sz nf0 (f + 1) p =
      if STATUSt (GETw m p) = FREE ∧ sz ≤ SIZEt (GETw m p) then some p
      else if p + SIZEt (GETw m p) = nf0 then none
      else nfScan m hs he sz nf0 f (p + SIZEt (GETw m p)) := by
  show (if p = he then _ else _) = _
  rw [if_neg hpe]

/-- Every block of a rendered sequence is at least 32 bytes. -/
theorem sizeSum_ge {m : Mem} {bs : List Blk} (p : Nat) (h : blockListAt m p bs) :
    32 * bs.length ≤ sizeSum bs := by
  induction bs generalizing p with
  | nil => simp [sizeSum]
  | cons b r ih =>
    obtain ⟨sz, st⟩ := b
    obtain ⟨_, _, _, h4, _, h6⟩ := h
    have := ih (p + sz) h6
    simp only [List.length_cons, sizeSum]
    omega

/-- A header address lies strictly inside the heap extent. -/
theorem headerAddrs_lt {m : Mem} {bs : List Blk} (hs p : Nat)
    (hbl : blockListAt m hs bs) (hp : p ∈ headerAddrs hs bs) : p < hs + sizeSum bs := by
  induction bs generalizing hs with
  | nil => simp [headerAddrs] at hp
  | cons b r ih =>
    obtain ⟨sz, st⟩ := b
    obtain ⟨_, _, _, h4, _, h6⟩ := hbl
    simp only [headerAddrs, List.mem_cons] at hp
    have hge := sizeSum_ge (hs + sz) h6
    rcases hp with rfl | hp
    · simp only [sizeSum]; omega
    · have := ih (hs + sz) h6 hp
      simp only [sizeSum]; omega

/-- Enough fuel for the scans on a rendered heap. -/
theorem scanFuel_enough (s : MM) (bs : List Blk) (hbl : blockListAt s.mem s.heap_start bs)
    (hext : s.heap_start + sizeSum bs = s.heap_end) : bs.length < scanFuel s := by
  have := sizeSum_ge s.heap_start hbl
  unfold scanFuel
  omega

/-- On failure `get_free_block` leaves the state unchanged. -/
theorem get_free_block_none (s : MM) (asz : Nat) (s1 : MM)
    (h : get_free_block s asz = (s1, none)) : s1 = s := by
  unfold get_free_block at h
  cases hpol : s.policy with
  | firstFit => rw [hpol] at h; injection h with h1 _; exact h1.symm
  | bestFit => rw [hpol] at h; injection h with h1 _; exact h1.symm
  | nextFit =>
    rw [hpol] at h
    rcases hscan : nfScan s.mem s.heap_start s.heap_end asz s.nf_ptr (scanFuel s) s.nf_ptr
      with _ | a'
    · rw [hscan] at h
      injection h with h1 _
      exact h1.symm
    · rw [hscan] at h
      injection h with _ h2
      exact absurd h2 (by simp)

/-- `extend_heap CHUNKSIZE` on a well-formed heap: the heap bounds grow by one
chunk, the old end sentinel row and the fresh bytes become free blocks, and the
final `coalesce` merges them (together with the trailing free block when the
last block of `bs` is free).  Only bytes at or after the surviving trailing
free block's header change. -/
theorem extend_heap_WF (s : MM) (bs : List Blk) (hwf : WF s bs)
    (hgrow : s.heap_end + 4096 < 2 ^ 64) :
    (extend_heap s CHUNKSIZE).heap_start = s.heap_start ∧
    (extend_heap s CHUNKSIZE).heap_end = s.heap_end + 4096 ∧
    (extend_heap s CHUNKSIZE).policy = s.policy ∧
    (extend_heap s CHUNKSIZE).nf = s.nf ∧
    (extend_heap s CHUNKSIZE).nf_ptr = s.nf_ptr ∧
    ∃ bs0 tl,
      bs = bs0 ++ tl ∧
      ((tl = [] ∧ (∃ bs1 szL, bs0 = bs1 ++ [(szL, ALLOC)]) ∧
         WF (extend_heap s CHUNKSIZE) (bs0 ++ [(4096, FREE)])) ∨
       (∃ szL, tl = [(szL, FREE)] ∧
         WF (extend_heap s CHUNKSIZE) (bs0 ++ [(szL + 4096, FREE)]))) ∧
      (∀ a, (extend_heap s CHUNKSIZE).mem a ≠ s.mem a →
        s.heap_start + sizeSum bs0 ≤ a) := by
  obtain ⟨hbl, hext, hsL, hsR, h32s, hlb, hbrk, hueb, hnil, hnfp, hnfb⟩ := hwf
  rcases List.eq_nil_or_concat bs with rfl | ⟨bs0, lastB, hconc⟩
  · exact absurd rfl hnil
  obtain ⟨szL, stL⟩ := lastB
  rw [List.concat_eq_append] at hconc
  subst hconc
  have hsum : sizeSum (bs0 ++ [(szL, stL)]) = sizeSum bs0 + szL := by
    rw [sizeSum_append]; simp [sizeSum]
  have hlast : GETw s.mem (s.heap_start + sizeSum bs0) = PACKt szL stL ∧
      GETw s.mem (s.heap_start + sizeSum bs0 + szL - 8) = PACKt szL stL ∧
      szL % 32 = 0 ∧ 32 ≤ szL ∧ stL < 2 :=
    ((blockListAt_append s.heap_start).mp hbl).2.imp id
      (fun h => ⟨h.1, h.2.1, h.2.2.1, h.2.2.2.1⟩)
  obtain ⟨hLhd, hLft, hL32, hL32le, hLst2⟩ := hlast
  have hl0 : blockListAt s.mem s.heap_start bs0 :=
    ((blockListAt_append s.heap_start).mp hbl).1
  have hheP : s.heap_start + sizeSum bs0 + szL = s.heap_end := by
    rw [hsum] at hext; omega
  have hv32 : PACKt 32 FREE < 2 ^ 64 := by decide
  have hv4064 : PACKt 4064 FREE < 2 ^ 64 := by decide
  have hv1 : PACKt 0 ALLOC < 2 ^ 64 := by decide
  have hmm : extend_heap s CHUNKSIZE =
      { s with
        mem := ((coalesce
          (PUTw (PUTw (PUTw (PUTw (PUTw s.mem s.heap_end (PACKt 32 FREE))
            (s.heap_end + 24) (PACKt 32 FREE))
            (s.heap_end + 4096) (PACKt 0 ALLOC))
            (s.heap_end + 32) (PACKt 4064 FREE))
            (s.heap_end + 4088) (PACKt 4064 FREE)) (s.heap_end + 8)).1),
        ds_brk := s.heap_end + 4128,
        heap_end := s.heap_end + 4096 } := by
    simp only [extend_heap, hbrk, CHUNKSIZE, TYPE_SIZE, Nat.add_sub_cancel_left]
    rw [GETw_PUTw_same _ _ _ hv32, SIZEt_PACKt 32 FREE (by decide) (by decide)]
    rw [show s.heap_end + 32 - 8 = s.heap_end + 24 from by omega]
    rw [show s.heap_end + 32 + 4096 - 4 * 8 = s.heap_end + 4096 from by omega]
    rw [show s.heap_end + 4096 - (s.heap_end + 32) = 4064 from by omega]
    rw [GETw_PUTw_same _ _ _ hv4064, SIZEt_PACKt 4064 FREE (by decide) (by decide)]
    rw [show s.heap_end + 32 + 4064 - 8 = s.heap_end + 4088 from by omega]
    rw [GETw_PUTw_ne _ _ _ _ (by omega), GETw_PUTw_ne _ _ _ _ (by omega),
        GETw_PUTw_ne _ _ _ _ (by omega), GETw_PUTw_same _ _ _ hv32,
        SIZEt_PACKt 32 FREE (by decide) (by decide)]
    rw [show s.heap_end + 32 + 8 - 32 = s.heap_end + 8 from by omega]
  rw [hmm]
  refine ⟨rfl, rfl, rfl, rfl, rfl, ?_⟩
  set M : Mem := (PUTw (PUTw (PUTw (PUTw (PUTw s.mem s.heap_end (PACKt 32 FREE))
    (s.heap_end + 24) (PACKt 32 FREE))
    (s.heap_end + 4096) (PACKt 0 ALLOC))
    (s.heap_end + 32) (PACKt 4064 FREE))
    (s.heap_end + 4088) (PACKt 4064 FREE)) with hM
  clear_value M
  have hfr5 : ∀ a, a < s.heap_end → M a = s.mem a := by
    intro a ha
    rw [hM, PUTw_out _ _ _ _ (by omega), PUTw_out _ _ _ _ (by omega),
      PUTw_out _ _ _ _ (by omega), PUTw_out _ _ _ _ (by omega),
      PUTw_out _ _ _ _ (by omega)]
  have hbl5 : blockListAt M s.heap_start
      ((bs0 ++ [(szL, stL)]) ++ (32, FREE) :: (4064, FREE) :: []) := by
    rw [blockListAt_append]
    refine ⟨blockListAt_congr s.heap_start
      (fun a ha1 ha2 => (hfr5 a (by omega)).symm) hbl, ?_⟩
    rw [hext]
    refine ⟨?_, ?_, by decide, by decide, by decide, ?_, ?_, by decide, by decide,
      by decide, trivial⟩
    · rw [hM, GETw_PUTw_ne _ _ _ _ (by omega), GETw_PUTw_ne _ _ _ _ (by omega),
        GETw_PUTw_ne _ _ _ _ (by omega), GETw_PUTw_ne _ _ _ _ (by omega)]
      exact GETw_PUTw_same _ _ _ hv32
    · rw [show s.heap_end + 32 - 8 = s.heap_end + 24 from by omega]
      rw [hM, GETw_PUTw_ne _ _ _ _ (by omega), GETw_PUTw_ne _ _ _ _ (by omega),
        GETw_PUTw_ne _ _ _ _ (by omega)]
      exact GETw_PUTw_same _ _ _ hv32
    · rw [hM, GETw_PUTw_ne _ _ _ _ (by omega)]
      exact GETw_PUTw_same _ _ _ hv4064
    · rw [show s.heap_end + 32 + 4064 - 8 = s.heap_end + 4088 from by omega, hM]
      exact GETw_PUTw_same _ _ _ hv4064
  have hMft : GETw M (s.heap_end - 8) = PACKt szL stL := by
    rw [GETw_congr (s.heap_end - 8) (fun i hi => hfr5 _ (by omega))]
    rw [show s.heap_end - 8 = s.heap_start + sizeSum bs0 + szL - 8 from by omega]
    exact hLft
  have hLst01 : stL = 0 ∨ stL = 1 := by omega
  rcases hLst01 with rfl | rfl
  · -- trailing block free: three-way merge into (szL + 4096, FREE)
    have hblB : blockListAt M s.heap_start
        (bs0 ++ (szL, FREE) :: (32, FREE) :: (4064, FREE) :: []) := by
      have h := hbl5
      rwa [List.append_assoc, List.singleton_append] at h
    have hco := coalesce_both M s.heap_start bs0 [] szL 32 4064 hblB (by omega)
      (by rw [sizeSum_append]; simp only [sizeSum]; omega)
    rw [show s.heap_start + sizeSum bs0 + szL + 8 = s.heap_end + 8 from by omega] at hco
    obtain ⟨hcoBL, hcoRet, hcoFr⟩ := hco
    have hptw : ∀ b, b < s.heap_start + sizeSum bs0 →
        (coalesce M (s.heap_end + 8)).1 b = s.mem b := by
      intro b hb
      have h1 : (coalesce M (s.heap_end + 8)).1 b = M b := by
        by_contra hne1
        rcases hcoFr b hne1 with h | h <;> omega
      rw [h1]
      exact hfr5 b (by omega)
    refine ⟨bs0, [(szL, FREE)], rfl, Or.inr ⟨szL, rfl, ?_⟩, ?_⟩
    · refine ⟨?_, ?_, ?_, ?_, h32s, hlb,
        (show s.heap_end + 4128 = s.heap_end + 4096 + 32 from by omega), hgrow,
        by simp, ?_, hnfb⟩
      · show blockListAt (coalesce M (s.heap_end + 8)).1 s.heap_start
          (bs0 ++ [(szL + 4096, FREE)])
        have h := hcoBL
        rwa [show 32 + szL + 4064 = szL + 4096 from by omega] at h
      · show s.heap_start + sizeSum (bs0 ++ [(szL + 4096, FREE)]) = s.heap_end + 4096
        rw [sizeSum_append]; simp only [sizeSum]; omega
      · show STATUSt (GETw (coalesce M (s.heap_end + 8)).1 (s.heap_start - 8)) = ALLOC
        rw [GETw_congr (s.heap_start - 8) (fun i hi => hptw _ (by omega))]
        exact hsL
      · show STATUSt (GETw (coalesce M (s.heap_end + 8)).1 (s.heap_end + 4096)) = ALLOC
        have hbytes : ∀ i, i < 8 →
            (coalesce M (s.heap_end + 8)).1 (s.heap_end + 4096 + i) = M (s.heap_end + 4096 + i) := by
          intro i hi
          by_contra hne1
          rcases hcoFr _ hne1 with h | h <;> omega
        rw [GETw_congr (s.heap_end + 4096) hbytes, hM,
          GETw_PUTw_ne _ _ _ _ (by omega), GETw_PUTw_ne _ _ _ _ (by omega),
          GETw_PUTw_same _ _ _ hv1]
        exact STATUSt_PACKt 0 ALLOC (by decide) (by decide)
      · intro hnf
        show s.nf_ptr ∈ headerAddrs s.heap_start (bs0 ++ [(szL + 4096, FREE)])
        have h := hnfp hnf
        rw [headerAddrs_append] at h ⊢
        simpa [headerAddrs] using h
    · intro a hne
      by_contra hcon
      push_neg at hcon
      exact hne (hptw a hcon)
  · -- trailing block allocated: the two new rows merge into (4096, FREE)
    have hprev : STATUSt (GETw M (s.heap_start + sizeSum (bs0 ++ [(szL, 1)]) - 8)) ≠ 0 := by
      rw [show s.heap_start + sizeSum (bs0 ++ [(szL, 1)]) - 8 = s.heap_end - 8 from by omega,
        hMft]
      have h := STATUSt_PACKt szL 1 (by omega) (by omega)
      omega
    have hco := coalesce_next M s.heap_start (bs0 ++ [(szL, 1)]) [] 32 4064 hbl5 hprev
      (by omega) (by rw [sizeSum_append]; simp only [sizeSum]; omega)
    rw [show s.heap_start + sizeSum (bs0 ++ [(szL, 1)]) + 8 = s.heap_end + 8 from by omega]
      at hco
    obtain ⟨hcoBL, hcoRet, hcoFr⟩ := hco
    have hptw : ∀ b, b < s.heap_start + sizeSum (bs0 ++ [(szL, 1)]) →
        (coalesce M (s.heap_end + 8)).1 b = s.mem b := by
      intro b hb
      have h1 : (coalesce M (s.heap_end + 8)).1 b = M b := by
        by_contra hne1
        rcases hcoFr b hne1 with h | h <;> omega
      rw [h1]
      exact hfr5 b (by omega)
    refine ⟨bs0 ++ [(szL, 1)], [], (List.append_nil _).symm,
      Or.inl ⟨rfl, ⟨bs0, szL, rfl⟩, ?_⟩, ?_⟩
    · refine ⟨?_, ?_, ?_, ?_, h32s, hlb,
        (show s.heap_end + 4128 = s.heap_end + 4096 + 32 from by omega), hgrow,
        by simp, ?_, hnfb⟩
      · show blockListAt (coalesce M (s.heap_end + 8)).1 s.heap_start
          ((bs0 ++ [(szL, 1)]) ++ [(4096, FREE)])
        have h := hcoBL
        rwa [show (32 + 4064 : Nat) = 4096 from by norm_num] at h
      · show s.heap_start + sizeSum ((bs0 ++ [(szL, 1)]) ++ [(4096, FREE)])
          = s.heap_end + 4096
        rw [sizeSum_append]; simp only [sizeSum]; omega
      · show STATUSt (GETw (coalesce M (s.heap_end + 8)).1 (s.heap_start - 8)) = ALLOC
        rw [GETw_congr (s.heap_start - 8) (fun i hi => hptw _ (by omega))]
        exact hsL
      · show STATUSt (GETw (coalesce M (s.heap_end + 8)).1 (s.heap_end + 4096)) = ALLOC
        have hbytes : ∀ i, i < 8 →
            (coalesce M (s.heap_end + 8)).1 (s.heap_end + 4096 + i) = M (s.heap_end + 4096 + i) := by
          intro i hi
          by_contra hne1
          rcases hcoFr _ hne1 with h | h <;> omega
        rw [GETw_congr (s.heap_end + 4096) hbytes, hM,
          GETw_PUTw_ne _ _ _ _ (by omega), GETw_PUTw_ne _ _ _ _ (by omega),
          GETw_PUTw_same _ _ _ hv1]
        exact STATUSt_PACKt 0 ALLOC (by decide) (by decide)
      · intro hnf
        show s.nf_ptr ∈ headerAddrs s.heap_start ((bs0 ++ [(szL, 1)]) ++ [(4096, FREE)])
        rw [headerAddrs_append]
        exact List.mem_append_left _ (hnfp hnf)
    · intro a hne
      by_contra hcon
      push_neg at hcon
      exact hne (hptw a (by omega))

/-- Completeness of the first-fit scan: when some FREE block of sufficient
size is rendered, the scan returns a hit. -/
theorem ffScan_complete {m : Mem} (asz : Nat) :
    ∀ (bs : List Blk) (p fuel : Nat), blockListAt m p bs → bs.length < fuel →
    (∃ l1 S l2, bs = l1 ++ (S, FREE) :: l2 ∧ asz ≤ S) →
    ∃ a, ffScan m (p + sizeSum bs) asz fuel p = some a := by
  intro bs
  induction bs with
  | nil =>
    intro p fuel _ _ hw
    obtain ⟨l1, S, l2, heq, -⟩ := hw
    cases l1 <;> simp at heq
  | cons b r ih =>
    obtain ⟨sz, st⟩ := b
    intro p fuel hbl hfuel hw
    obtain ⟨h1, h2, h3, h4, h5, h6⟩ := hbl
    obtain ⟨f, rfl⟩ : ∃ f, fuel = f + 1 := ⟨fuel - 1, by omega⟩
    have hplt : p < p + sizeSum ((sz, st) :: r) := by
      simp only [sizeSum]; omega
    rw [ffScan_step m _ asz f p hplt]
    by_cases hfit : STATUSt (GETw m p) = FREE ∧ asz ≤ SIZEt (GETw m p)
    · rw [if_pos hfit]
      exact ⟨p, rfl⟩
    · rw [if_neg hfit]
      have hsz : SIZEt (GETw m p) = sz := by
        rw [h1]; exact SIZEt_PACKt sz st (by omega) (by omega)
      rw [hsz, show p + sizeSum ((sz, st) :: r) = p + sz + sizeSum r from by
        simp only [sizeSum]; omega]
      apply ih (p + sz) f h6 (by simp only [List.length_cons] at hfuel; omega)
      obtain ⟨l1, S, l2, heq, hS⟩ := hw
      cases l1 with
      | nil =>
        simp only [List.nil_append, List.cons.injEq] at heq
        obtain ⟨heq1, -⟩ := heq
        injection heq1 with e1 e2
        subst e1
        subst e2
        have hA : STATUSt (GETw m p) = FREE := by
          rw [h1]
          exact STATUSt_PACKt sz FREE (by omega) (by norm_num [FREE])
        have hB : asz ≤ SIZEt (GETw m p) := by
          rw [hsz]
          exact hS
        exact absurd ⟨hA, hB⟩ hfit
      | cons w l1' =>
        simp only [List.cons_append, List.cons.injEq] at heq
        exact ⟨l1', S, l2, heq.2, hS⟩

/-- First pass of the next-fit scan: walking a rendered segment that ends at
`heap_end`, starting at or past the cursor value `nf0`, either hits a fitting
free block or reaches `heap_end` having found none, spending one unit of fuel
per block. -/
theorem nfScan_seg_pass (m : Mem) (hs he asz nf0 : Nat) :
    ∀ (cur : List Blk) (p fuel : Nat),
    blockListAt m p cur → p + sizeSum cur = he → nf0 ≤ p → cur.length < fuel →
    (∃ a, nfScan m hs he asz nf0 fuel p = some a) ∨
    ((∀ S, (S, FREE) ∈ cur → ¬asz ≤ S) ∧
      nfScan m hs he asz nf0 fuel p
        = nfScan m hs he asz nf0 (fuel - cur.length) he) := by
  intro cur
  induction cur with
  | nil =>
    intro p fuel _ hext _ _
    right
    refine ⟨by simp, ?_⟩
    have hp : p = he := by simp only [sizeSum] at hext; omega
    rw [hp]
    simp
  | cons b r ih =>
    obtain ⟨sz, st⟩ := b
    intro p fuel hbl hext hnf hfuel
    obtain ⟨h1, h2, h3, h4, h5, h6⟩ := hbl
    obtain ⟨f, rfl⟩ : ∃ f, fuel = f + 1 := ⟨fuel - 1, by omega⟩
    have hgesum := sizeSum_ge (p + sz) h6
    simp only [sizeSum] at hext
    have hne : p ≠ he := by omega
    rw [nfScan_go m hs he asz nf0 f p hne]
    have hszr : SIZEt (GETw m p) = sz := by
      rw [h1]; exact SIZEt_PACKt sz st (by omega) (by omega)
    have hstr : STATUSt (GETw m p) = st := by
      rw [h1]; exact STATUSt_PACKt sz st (by omega) (by omega)
    by_cases hfit : STATUSt (GETw m p) = FREE ∧ asz ≤ SIZEt (GETw m p)
    · rw [if_pos hfit]
      exact Or.inl ⟨p, rfl⟩
    · rw [if_neg hfit, hszr, if_neg (by omega : ¬p + sz = nf0)]
      rcases ih (p + sz) f h6 (by omega) (by omega)
        (by simp only [List.length_cons] at hfuel; omega) with hl | ⟨hno, heq⟩
      · exact Or.inl hl
      · right
        refine ⟨?_, ?_⟩
        · intro S hmem hS
          rcases List.mem_cons.mp hmem with heq' | hmem'
          · injection heq' with e1 e2
            refine hfit ⟨?_, ?_⟩
            · rw [hstr]; exact e2.symm
            · rw [hszr, ← e1]; exact hS
          · exact hno S hmem' hS
        · rw [heq]
          congr 1
          simp only [List.length_cons]
          omega

/-- Wrapped pass of the next-fit scan: walking the rendered prefix from
`heap_start` up to the cursor value `nf0` finds any fitting free block lying
before the cursor; the stop test `p + size = nf0` only fires after the last
prefix block has been examined. -/
theorem nfScan_seg_to_nf0 (m : Mem) (hs he asz nf0 : Nat) (hnfhe : nf0 ≤ he) :
    ∀ (pre : List Blk) (p fuel : Nat),
    blockListAt m p pre → p + sizeSum pre = nf0 → pre.length < fuel →
    (∃ S, (S, FREE) ∈ pre ∧ asz ≤ S) →
    ∃ a, nfScan m hs he asz nf0 fuel p = some a := by
  intro pre
  induction pre with
  | nil =>
    intro p fuel _ _ _ hw
    obtain ⟨S, hmem, -⟩ := hw
    simp at hmem
  | cons b r ih =>
    obtain ⟨sz, st⟩ := b
    intro p fuel hbl hext hfuel hw
    obtain ⟨h1, h2, h3, h4, h5, h6⟩ := hbl
    obtain ⟨f, rfl⟩ : ∃ f, fuel = f + 1 := ⟨fuel - 1, by omega⟩
    have hgesum := sizeSum_ge (p + sz) h6
    simp only [sizeSum] at hext
    have hne : p ≠ he := by omega
    rw [nfScan_go m hs he asz nf0 f p hne]
    have hszr : SIZEt (GETw m p) = sz := by
      rw [h1]; exact SIZEt_PACKt sz st (by omega) (by omega)
    have hstr : STATUSt (GETw m p) = st := by
      rw [h1]; exact STATUSt_PACKt sz st (by omega) (by omega)
    by_cases hfit : STATUSt (GETw m p) = FREE ∧ asz ≤ SIZEt (GETw m p)
    · rw [if_pos hfit]
      exact ⟨p, rfl⟩
    · obtain ⟨S, hmem, hS⟩ := hw
      rcases List.mem_cons.mp hmem with heq' | hmem'
      · exfalso
        injection heq' with e1 e2
        refine hfit ⟨?_, ?_⟩
        · rw [hstr]; exact e2.symm
        · rw [hszr, ← e1]; exact hS
      · have hrne : r ≠ [] := by rintro rfl; simp at hmem'
        have hsr : 32 ≤ sizeSum r := by
          cases r with
          | nil => exact absurd rfl hrne
          | cons b2 r2 =>
            obtain ⟨sz2, st2⟩ := b2
            obtain ⟨-, -, -, h4b, -, -⟩ := h6
            simp only [sizeSum]
            omega
        rw [if_neg hfit, hszr, if_neg (by omega : ¬p + sz = nf0)]
        exact ih (p + sz) f h6 (by omega)
          (by simp only [List.length_cons] at hfuel; omega) ⟨S, hmem', hS⟩

/-- Completeness of the next-fit circular scan: started at a block header, it
returns a hit whenever some FREE block of sufficient size exists anywhere in
the rendered sequence, given fuel for the two passes. -/
theorem nfScan_complete {m : Mem} (hs he asz nf0 : Nat) (bs : List Blk) (fuel : Nat)
    (hbl : blockListAt m hs bs) (hext : hs + sizeSum bs = he)
    (hmem : nf0 ∈ headerAddrs hs bs)
    (hfit : ∃ S, (S, FREE) ∈ bs ∧ asz ≤ S)
    (hfuel : 2 * bs.length + 2 ≤ fuel) :
    ∃ a, nfScan m hs he asz nf0 fuel nf0 = some a := by
  obtain ⟨pre, b0, l2, hdec, hnf0⟩ := headerAddrs_decomp hs nf0 hmem
  subst hdec
  obtain ⟨hpre, hcur⟩ := (blockListAt_append hs).mp hbl
  rw [← hnf0] at hcur
  have hsplitsum : sizeSum (pre ++ b0 :: l2) = sizeSum pre + sizeSum (b0 :: l2) :=
    sizeSum_append _ _
  have hlen : (pre ++ b0 :: l2).length = pre.length + (b0 :: l2).length := by simp
  have hextc : nf0 + sizeSum (b0 :: l2) = he := by omega
  rcases nfScan_seg_pass m hs he asz nf0 (b0 :: l2) nf0 fuel hcur hextc le_rfl
    (by omega) with ⟨a, ha⟩ | ⟨hno, heq⟩
  · exact ⟨a, ha⟩
  · obtain ⟨S, hmemS, hS⟩ := hfit
    rcases List.mem_append.mp hmemS with hpreS | hcurS
    swap
    · exact absurd hS (hno S hcurS)
    rw [heq]
    obtain ⟨f2, hf2⟩ : ∃ f2, fuel - (b0 :: l2).length = f2 + 1 :=
      ⟨fuel - (b0 :: l2).length - 1, by omega⟩
    rw [hf2, nfScan_at_he m hs he asz nf0 f2 he rfl]
    have hsne : hs ≠ nf0 := by
      intro hcon
      have hz : sizeSum pre = 0 := by omega
      cases pre with
      | nil => simp at hpreS
      | cons bb rr =>
        obtain ⟨szb, stb⟩ := bb
        obtain ⟨-, -, -, h4b, -, -⟩ := hpre
        simp only [sizeSum] at hz
        omega
    rw [if_neg hsne]
    have hgecur := sizeSum_ge nf0 hcur
    exact nfScan_seg_to_nf0 m hs he asz nf0 (by omega) pre hs f2 hpre hnf0.symm
      (by omega) ⟨S, hpreS, hS⟩

/-- A memory rendering a single FREE block of size `2^32 + 32` between the two
sentinels: its leftover for a 32-byte request is `2^32 > UINT_MAX`. -/
def bigMem : Mem :=
  PUTw (PUTw (PUTw (PUTw (fun _ => 0) 24 (PACKt 0 ALLOC))
    32 (PACKt (2 ^ 32 + 32) FREE))
    (2 ^ 32 + 56) (PACKt (2 ^ 32 + 32) FREE))
    (2 ^ 32 + 64) (PACKt 0 ALLOC)

/-- A well-formed best-fit heap whose single free block is over-sized. -/
def bigState : MM :=
  { mem := bigMem, heap_start := 32, heap_end := 2 ^ 32 + 64,
    ds_brk := 2 ^ 32 + 96, nf_ptr := 0, nf := false, policy := .bestFit }

/-- On a best-fit heap whose single block is FREE with leftover at least
`UINT_MAX`, the search-extend loop never returns: every extension merely grows
that block, whose leftover stays above the scan's initial fragmentation bound,
so the scan keeps failing and the loop consumes all its fuel. -/
theorem bf_huge_loop_fuelOut : ∀ (fuel : Nat) (s : MM) (orc : Nat → Bool) (T : Nat),
    WF s [(T, FREE)] → s.policy = .bestFit → (∀ k, orc k = true) →
    UINT_MAX + 32 ≤ T → s.heap_end + 4096 * fuel < 2 ^ 64 →
    mm_malloc_loop s orc 32 fuel = .fuelOut := by
  intro fuel
  induction fuel with
  | zero =>
    intro s orc T _ _ _ _ _
    rfl
  | succ n ih =>
    intro s orc T hwf hpol horc hT hub
    have hnone : get_free_block s 32 = (s, none) := by
      unfold get_free_block
      rw [hpol]
      show (s, bfScan s.mem s.heap_end 32 (scanFuel s) s.heap_start none UINT_MAX)
        = (s, none)
      have hno : ∀ ae asz ast, (ae, asz, ast) ∈ blocksWithAddr s.heap_start [(T, FREE)] →
          ¬(ast = FREE ∧ 32 ≤ asz ∧ asz - 32 < UINT_MAX) := by
        intro ae asz ast hmm'
        simp only [blocksWithAddr, List.mem_cons, List.not_mem_nil, or_false,
          Prod.mk.injEq] at hmm'
        obtain ⟨rfl, rfl, rfl⟩ := hmm'
        rintro ⟨-, -, hlt⟩
        omega
      rw [(bf_best_fit_amended s.mem [(T, FREE)] s.heap_start s.heap_end 32 (scanFuel s)
        hwf.blocks hwf.extent
        (scanFuel_enough s _ hwf.blocks hwf.extent)).2.mpr hno]
    unfold mm_malloc_loop
    rw [hnone]
    show (if orc 0 = true then
        mm_malloc_loop (extend_heap s CHUNKSIZE) (fun k => orc (k + 1)) 32 n
        else Res.panic) = Res.fuelOut
    rw [if_pos (horc 0)]
    obtain ⟨hEhs, hEhe, hEpol, hEnf, hEnfp, bs0, tl, hbs0, hEcase, hEfr⟩ :=
      extend_heap_WF s [(T, FREE)] hwf (by omega)
    rcases hEcase with ⟨htl, ⟨bs1, szL, hlast⟩, hwfE⟩ | ⟨szL, htl, hwfE⟩
    · subst htl
      rw [List.append_nil] at hbs0
      rw [← hbs0] at hlast
      exfalso
      cases bs1 with
      | nil =>
        simp only [List.nil_append, List.cons.injEq] at hlast
        exact absurd (congrArg Prod.snd hlast.1) (by norm_num [ALLOC, FREE])
      | cons w bs1' =>
        have := congrArg List.length hlast
        simp at this
    · subst htl
      have hb0 : bs0 = [] ∧ szL = T := by
        cases bs0 with
        | nil =>
          simp only [List.nil_append, List.cons.injEq] at hbs0
          exact ⟨rfl, (congrArg Prod.fst hbs0.1).symm⟩
        | cons w bs0' =>
          have := congrArg List.length hbs0
          simp at this
      obtain ⟨rfl, rfl⟩ := hb0
      rw [List.nil_append] at hwfE
      exact ih (extend_heap s CHUNKSIZE) (fun k => orc (k + 1)) (szL + 4096) hwfE
        (by rw [hEpol]; exact hpol) (fun k => horc (k + 1)) (by omega)
        (by rw [hEhe]; omega)

/-- **C9 (counterexample to the literal claim)**: on a well-formed best-fit
heap whose single free block is large enough for the request but has leftover
`≥ UINT_MAX`, the search-extend-retry loop of `mm_malloc` never returns even
though the region provider succeeds on every growth call: after `2^40`
iterations the loop is still running (each extension only grows the
over-sized block, which the best-fit scan never selects). -/
theorem malloc_termination_claim_counterexample :
    mm_malloc_loop bigState (fun _ => true) 32 (2 ^ 40) = .fuelOut := by
  apply bf_huge_loop_fuelOut (2 ^ 40) bigState (fun _ => true) (2 ^ 32 + 32)
  · exact ⟨by decide, by decide, by decide, by decide, by decide, by decide, by decide,
      by decide, by decide, by decide, by decide⟩
  · rfl
  · intro k
    rfl
  · decide
  · show bigState.heap_end + 4096 * 2 ^ 40 < 2 ^ 64
    have hbe : bigState.heap_end = 2 ^ 32 + 64 := rfl
    omega

/-- Growth induction for the first-fit and next-fit policies: once the heap
ends in a free block of size `t` and `asz ≤ t + 4096·n`, the loop succeeds or
panics within `n + 1` iterations — each failing scan is followed by an
extension that grows the trailing free block by one chunk, and both scans are
complete (they return a hit whenever a fitting free block exists). -/
theorem ff_loop_reaches : ∀ (n : Nat) (s : MM) (orc : Nat → Bool) (asz : Nat)
    (bs0 : List Blk) (t : Nat),
    WF s (bs0 ++ [(t, FREE)]) →
    (s.policy = .firstFit ∨ s.policy = .nextFit) → asz % 32 = 0 → 32 ≤ asz →
    asz ≤ t + 4096 * n → s.heap_end + 4096 * n < 2 ^ 64 →
    mm_malloc_loop s orc asz (n + 1) ≠ .fuelOut := by
  intro n
  induction n with
  | zero =>
    intro s orc asz bs0 t hwf hpol h32m h32 hle _
    have hsome : ∃ a, (get_free_block s asz).2 = some a := by
      rcases hpol with hpf | hpn
      · have h := ffScan_complete asz (bs0 ++ [(t, FREE)]) s.heap_start (scanFuel s)
          hwf.blocks (scanFuel_enough s _ hwf.blocks hwf.extent)
          ⟨bs0, t, [], rfl, by omega⟩
        rw [hwf.extent] at h
        obtain ⟨a, ha⟩ := h
        refine ⟨a, ?_⟩
        unfold get_free_block
        rw [hpf]
        exact ha
      · have hnf : s.nf = true := hwf.nfb.mpr hpn
        have hfuel2 : 2 * (bs0 ++ [(t, FREE)]).length + 2 ≤ scanFuel s := by
          have hge := sizeSum_ge s.heap_start hwf.blocks
          have hx := hwf.extent
          unfold scanFuel
          omega
        obtain ⟨a, ha⟩ := nfScan_complete s.heap_start s.heap_end asz s.nf_ptr
          (bs0 ++ [(t, FREE)]) (scanFuel s) hwf.blocks hwf.extent (hwf.nfp hnf)
          ⟨t, by simp, by omega⟩ hfuel2
        have hsnd : (get_free_block s asz).2
            = nfScan s.mem s.heap_start s.heap_end asz s.nf_ptr (scanFuel s) s.nf_ptr := by
          unfold get_free_block
          rw [hpn]
          rcases nfScan s.mem s.heap_start s.heap_end asz s.nf_ptr (scanFuel s) s.nf_ptr
            with _ | a2
          · rfl
          · rfl
        exact ⟨a, by rw [hsnd]; exact ha⟩
    obtain ⟨a, ha⟩ := hsome
    unfold mm_malloc_loop
    rcases hg : get_free_block s asz with ⟨s1, oa⟩
    cases oa with
    | some addr => simp
    | none =>
      rw [hg] at ha
      simp at ha
  | succ m ih =>
    intro s orc asz bs0 t hwf hpol h32m h32 hle hub
    unfold mm_malloc_loop
    rcases hg : get_free_block s asz with ⟨s1, oa⟩
    cases oa with
    | some addr => simp
    | none =>
      have hs1 : s1 = s := get_free_block_none s asz s1 hg
      subst hs1
      show (if orc 0 = true then
          mm_malloc_loop (extend_heap s1 CHUNKSIZE) (fun k => orc (k + 1)) asz (m + 1)
          else Res.panic) ≠ Res.fuelOut
      by_cases ho : orc 0 = true
      · rw [if_pos ho]
        obtain ⟨hEhs, hEhe, hEpol, hEnf, hEnfp, bs0', tl, hbs0, hEcase, hEfr⟩ :=
          extend_heap_WF s1 (bs0 ++ [(t, FREE)]) hwf (by omega)
        rcases hEcase with ⟨htl, ⟨bs1, szL, hlast⟩, hwfE⟩ | ⟨szL, htl, hwfE⟩
        · exfalso
          subst htl
          rw [List.append_nil] at hbs0
          rw [← hbs0] at hlast
          obtain ⟨-, hx⟩ := List.append_inj' hlast rfl
          injection hx with hx1 hx2
          exact absurd (congrArg Prod.snd hx1) (by norm_num [ALLOC, FREE])
        · subst htl
          obtain ⟨hb0, hx⟩ := List.append_inj' hbs0 rfl
          injection hx with hx1 hx2
          have hszt : szL = t := (congrArg Prod.fst hx1).symm
          subst hszt
          subst hb0
          exact ih (extend_heap s1 CHUNKSIZE) (fun k => orc (k + 1)) asz bs0 (szL + 4096)
            hwfE (hpol.imp (fun h => hEpol.trans h) (fun h => hEpol.trans h)) h32m h32
            (by omega) (by rw [hEhe]; omega)
      · rw [if_neg ho]
        simp

/-- **C9 (amended)**: under the first-fit and next-fit policies `mm_malloc`
terminates: its search-extend-retry loop either returns a payload address or
the process aborts on a failed growth call, within
`allocSize size / 4096 + 2` iterations — each failed scan extends the heap,
the extensions accumulate into the trailing free block until it satisfies the
request, and both scans are complete.  (Under best fit this can fail: a free
block whose leftover exceeds `UINT_MAX` is never selected, see the
counterexample.) -/
theorem malloc_terminates_ff_nf (s : MM) (orc : Nat → Bool) (size : Nat)
    (bs : List Blk) (hwf : WF s bs)
    (hpol : s.policy = .firstFit ∨ s.policy = .nextFit)
    (hub : s.heap_end + 4096 * (allocSize size / 4096 + 2) < 2 ^ 64) :
    ∃ fuel, mm_malloc s orc size fuel ≠ .fuelOut := by
  obtain ⟨hm32, hm32le, -⟩ := allocSize_facts size
  refine ⟨allocSize size / 4096 + 2, ?_⟩
  show mm_malloc_loop s orc (allocSize size) (allocSize size / 4096 + 2) ≠ .fuelOut
  have hstep : allocSize size / 4096 + 2 = (allocSize size / 4096 + 1) + 1 := by omega
  rw [hstep]
  unfold mm_malloc_loop
  rcases hg : get_free_block s (allocSize size) with ⟨s1, oa⟩
  cases oa with
  | some addr => simp
  | none =>
    have hs1 : s1 = s := get_free_block_none s (allocSize size) s1 hg
    subst hs1
    show (if orc 0 = true then
        mm_malloc_loop (extend_heap s1 CHUNKSIZE) (fun k => orc (k + 1)) (allocSize size)
          (allocSize size / 4096 + 1)
        else Res.panic) ≠ Res.fuelOut
    by_cases ho : orc 0 = true
    · rw [if_pos ho]
      obtain ⟨hEhs, hEhe, hEpol, hEnf, hEnfp, bs0', tl, hbs0, hEcase, hEfr⟩ :=
        extend_heap_WF s1 bs hwf (by omega)
      rcases hEcase with ⟨htl, -, hwfE⟩ | ⟨szL, htl, hwfE⟩
      · exact ff_loop_reaches (allocSize size / 4096) (extend_heap s1 CHUNKSIZE)
          (fun k => orc (k + 1)) (allocSize size) bs0' 4096 hwfE
          (hpol.imp (fun h => hEpol.trans h) (fun h => hEpol.trans h)) hm32 hm32le
          (by omega) (by rw [hEhe]; omega)
      · exact ff_loop_reaches (allocSize size / 4096) (extend_heap s1 CHUNKSIZE)
          (fun k => orc (k + 1)) (allocSize size) bs0' (szL + 4096) hwfE
          (hpol.imp (fun h => hEpol.trans h) (fun h => hEpol.trans h)) hm32 hm32le
          (by omega) (by rw [hEhe]; omega)
    · rw [if_neg ho]
      simp

/-- Closed witness for the amended C9 theorem on a fresh first-fit heap and a
fresh next-fit heap. -/
theorem malloc_terminates_ff_nf_witness :
    (∃ fuel, mm_malloc uafHeap (fun _ => true) 16 fuel ≠ .fuelOut) ∧
    (∃ fuel, mm_malloc (mm_init .nextFit 4096) (fun _ => true) 16 fuel ≠ .fuelOut) :=
  ⟨malloc_terminates_ff_nf uafHeap (fun _ => true) 16 [(4032, FREE)]
    ⟨by decide, by decide, by decide, by decide, by decide, by decide, by decide,
      by decide, by decide, by decide, by decide⟩
    (Or.inl rfl) (by decide),
   malloc_terminates_ff_nf (mm_init .nextFit 4096) (fun _ => true) 16 [(4032, FREE)]
    ⟨by decide, by decide, by decide, by decide, by decide, by decide, by decide,
      by decide, by decide, by decide, by decide⟩
    (Or.inr rfl) (by decide)⟩

end MemMgr
